import Mathlib

/-!
# Verification of the block-file storage engine and cryptogen CSP helpers

This development formalises, over a shallow embedding, the behaviour of the
repository's block-file storage engine (block codec, file store with rolling,
checkpoint manager, recovery manager, index, block iterator, blockchain info
provider) and of the `csp` key-loading helpers.

The storage-engine implementation itself is not part of the visible source
(only its test suite is), so those definitions are modelled from the
specification's component design (spec.md sections 3, 4, 6 and 8), keeping
the field and function names used by the tests (`checkpointInfo`,
`latestFileChunkSuffixNum`, `latestFileChunksize`, `lastBlockNumber`,
`serializeBlock`, `addBlock`, `retrieveBlocks`, `getBlockchainInfo`).
Bytes are modelled as natural numbers; on-disk files as lists of bytes.
-/

namespace Fabric

/-! ## Varint encoding (protobuf-style length prefixes)

Modelled from the spec: the record wire format is
`varint(payloadLength) || payload` (spec section 6), matching
`proto.EncodeVarint` used by the tests.  Encoded little-endian in base-128
groups; every byte except the last carries a continuation bit. -/

/-- Fuel-driven worker for `varintEncode`; `fuel > n` always suffices. -/
def varintEncodeAux : Nat → Nat → List Nat
  | 0, n => [n]
  | fuel + 1, n =>
    if n < 128 then [n] else (n % 128 + 128) :: varintEncodeAux fuel (n / 128)

/-- Varint encoding of a natural number. -/
def varintEncode (n : Nat) : List Nat := varintEncodeAux (n + 1) n

/-- Varint decoding in consume style: returns the value and the unread rest. -/
def parseVarint : List Nat → Option (Nat × List Nat)
  | [] => none
  | c :: rest =>
    if c < 128 then some (c, rest)
    else
      match parseVarint rest with
      | none => none
      | some (n, rest2) => some (n * 128 + (c - 128), rest2)

theorem varintEncodeAux_ne_nil (fuel n : Nat) : varintEncodeAux fuel n ≠ [] := by
  cases fuel with
  | zero => simp [varintEncodeAux]
  | succ f =>
    unfold varintEncodeAux
    split <;> simp

theorem varintEncode_ne_nil (n : Nat) : varintEncode n ≠ [] :=
  varintEncodeAux_ne_nil _ _

theorem parseVarint_varintEncodeAux (fuel : Nat) :
    ∀ n rest, n < fuel →
      parseVarint (varintEncodeAux fuel n ++ rest) = some (n, rest) := by
  induction fuel with
  | zero => intro n rest h; omega
  | succ f ih =>
    intro n rest h
    unfold varintEncodeAux
    by_cases hn : n < 128
    · simp [hn, parseVarint]
    · have hf : n / 128 < f := by
        have : n / 128 < n := Nat.div_lt_self (by omega) (by omega)
        omega
      have hc : ¬ (n % 128 + 128 < 128) := by omega
      rw [if_neg hn, List.cons_append]
      have hstep : parseVarint ((n % 128 + 128) :: (varintEncodeAux f (n / 128) ++ rest)) =
          match parseVarint (varintEncodeAux f (n / 128) ++ rest) with
          | none => none
          | some (m, rest2) => some (m * 128 + (n % 128 + 128 - 128), rest2) := by
        conv_lhs => rw [parseVarint]
        rw [if_neg hc]
      rw [hstep, ih (n / 128) rest hf]
      simp only [Option.some.injEq, Prod.mk.injEq, and_true,
        Nat.add_sub_cancel]
      omega

theorem parseVarint_varintEncode (n : Nat) (rest : List Nat) :
    parseVarint (varintEncode n ++ rest) = some (n, rest) :=
  parseVarint_varintEncodeAux (n + 1) n rest (Nat.lt_succ_self n)

theorem parseVarint_take_varintEncodeAux (fuel : Nat) :
    ∀ n k, n < fuel → k < (varintEncodeAux fuel n).length →
      parseVarint ((varintEncodeAux fuel n).take k) = none := by
  induction fuel with
  | zero => intro n k h; omega
  | succ f ih =>
    intro n k h hk
    unfold varintEncodeAux at hk ⊢
    by_cases hn : n < 128
    · simp [hn] at hk
      subst hk
      simp [parseVarint]
    · simp only [hn, if_false] at hk ⊢
      cases k with
      | zero => simp [parseVarint]
      | succ k' =>
        simp only [List.length_cons, Nat.succ_lt_succ_iff] at hk
        have hdiv : n / 128 < f := by
          have : n / 128 < n := Nat.div_lt_self (by omega) (by omega)
          omega
        have hc : ¬ (n % 128 + 128 < 128) := by omega
        simp [parseVarint, hc, ih (n / 128) k' hdiv hk]

theorem parseVarint_take_varintEncode (n k : Nat)
    (hk : k < (varintEncode n).length) :
    parseVarint ((varintEncode n).take k) = none :=
  parseVarint_take_varintEncodeAux (n + 1) n k (Nat.lt_succ_self n) hk

theorem parseVarint_shrink :
    ∀ bs n rest, parseVarint bs = some (n, rest) → rest.length < bs.length := by
  intro bs
  induction bs with
  | nil => intro n rest h; simp [parseVarint] at h
  | cons c r ih =>
    intro n rest h
    unfold parseVarint at h
    by_cases hc : c < 128
    · simp [hc] at h
      simp [← h.2, List.length_cons, Nat.lt_succ_self]
    · simp only [hc, if_false] at h
      cases hr : parseVarint r with
      | none => simp [hr] at h
      | some p =>
        simp [hr] at h
        have := ih p.1 p.2 (by rw [hr])
        have h2 : rest = p.2 := by
          rcases h with ⟨_, h2⟩
          exact h2.symm
        rw [h2]
        simp [List.length_cons]
        omega

/-! ## Block codec

Modelled from the spec: the Block Codec (spec section 4.1) serialises a
logical block (number, hash, previous hash, list of opaque transaction
envelopes — spec section 3) to a deterministic, self-describing byte
sequence; `deserializeBlock` is its inverse and fails on malformed input. -/

/-- A logical block (spec section 3): number, hash of the block contents,
hash of the prior block, and the opaque transaction envelopes. -/
structure Block where
  number : Nat
  hash : List Nat
  previousHash : List Nat
  txs : List (List Nat)
deriving DecidableEq, Repr

/-- A length-prefixed byte field. -/
def lenBytes (xs : List Nat) : List Nat := varintEncode xs.length ++ xs

/-- Reads one length-prefixed byte field; fails on a short read. -/
def parseChunk (bs : List Nat) : Option (List Nat × List Nat) :=
  match parseVarint bs with
  | none => none
  | some (len, rest) =>
    if len ≤ rest.length then some (rest.take len, rest.drop len) else none

/-- Reads a counted sequence of length-prefixed transaction envelopes. -/
def parseTxs : Nat → List Nat → Option (List (List Nat) × List Nat)
  | 0, bs => some ([], bs)
  | k + 1, bs =>
    match parseChunk bs with
    | none => none
    | some (tx, rest) =>
      match parseTxs k rest with
      | none => none
      | some (txs, rest2) => some (tx :: txs, rest2)

/-- Deterministic block serialisation (the codec's `encode`; named after the
`serializeBlock` helper exercised by `TestBlockfileMgrFileRolling`). -/
def serializeBlock (b : Block) : List Nat :=
  varintEncode b.number ++ lenBytes b.hash ++ lenBytes b.previousHash ++
    varintEncode b.txs.length ++ (b.txs.map lenBytes).flatten

/-- Consume-style block parser. -/
def parseBlock (bs : List Nat) : Option (Block × List Nat) :=
  match parseVarint bs with
  | none => none
  | some (num, r1) =>
    match parseChunk r1 with
    | none => none
    | some (h, r2) =>
      match parseChunk r2 with
      | none => none
      | some (ph, r3) =>
        match parseVarint r3 with
        | none => none
        | some (ntx, r4) =>
          match parseTxs ntx r4 with
          | none => none
          | some (txs, r5) => some (⟨num, h, ph, txs⟩, r5)

/-- The codec's `decode`: succeeds only when the bytes are exactly one
serialised block. -/
def deserializeBlock (bs : List Nat) : Option Block :=
  match parseBlock bs with
  | some (b, []) => some b
  | _ => none

theorem parseChunk_lenBytes (xs rest : List Nat) :
    parseChunk (lenBytes xs ++ rest) = some (xs, rest) := by
  unfold parseChunk lenBytes
  rw [List.append_assoc, parseVarint_varintEncode]
  simp [List.take_left, List.drop_left]

theorem parseTxs_join (txs : List (List Nat)) (rest : List Nat) :
    parseTxs txs.length ((txs.map lenBytes).flatten ++ rest) = some (txs, rest) := by
  induction txs generalizing rest with
  | nil => simp [parseTxs]
  | cons t ts ih =>
    simp only [List.map_cons, List.flatten_cons, List.length_cons, List.append_assoc]
    simp only [parseTxs, parseChunk_lenBytes, ih]

theorem parseBlock_serializeBlock (b : Block) (rest : List Nat) :
    parseBlock (serializeBlock b ++ rest) = some (b, rest) := by
  unfold serializeBlock
  simp only [List.append_assoc]
  simp only [parseBlock, parseVarint_varintEncode, parseChunk_lenBytes, parseTxs_join]

theorem deserializeBlock_serializeBlock (b : Block) :
    deserializeBlock (serializeBlock b) = some b := by
  unfold deserializeBlock
  have h := parseBlock_serializeBlock b []
  rw [List.append_nil] at h
  rw [h]

/-! ## Record framing and file scanning

Modelled from the spec: a Record is a varint-encoded byte length followed by
that many serialised Block bytes (spec section 3); the Recovery Manager
sequentially decodes records until end of file at a record boundary or a
short/malformed read partway through a record (spec section 4.4 step 3). -/

/-- On-disk record for one block: `varint(payloadLength) || payload`. -/
def encodeRecord (b : Block) : List Nat :=
  varintEncode (serializeBlock b).length ++ serializeBlock b

/-- Decodes one record from the head of a byte stream.  On success returns
the block, the byte size of the length prefix, the byte size of the payload
and the unread rest; a short read or a malformed payload yields `none`. -/
def decodeRecord (bs : List Nat) : Option (Block × Nat × Nat × List Nat) :=
  match parseVarint bs with
  | none => none
  | some (len, rest) =>
    if len ≤ rest.length then
      match deserializeBlock (rest.take len) with
      | none => none
      | some b => some (b, bs.length - rest.length, len, rest.drop len)
    else none

/-- A pointer into the log (spec section 3): file suffix, byte offset and
byte length of one serialised block, used only to seek-and-read. -/
structure Location where
  fileSuffixNum : Nat
  offset : Nat
  bytesLength : Nat
deriving DecidableEq, Repr

/-- Sequentially decodes records of one blockfile, producing each block with
its Location and the byte offset of the last complete record boundary.  The
fuel argument only forces termination; `bs.length` always suffices. -/
def scanFileLoop (s : Nat) : Nat → Nat → List Nat → List (Block × Location) × Nat
  | 0, off, _ => ([], off)
  | fuel + 1, off, bs =>
    match decodeRecord bs with
    | none => ([], off)
    | some (b, vl, len, rest) =>
      let res := scanFileLoop s fuel (off + vl + len) rest
      ((b, ⟨s, off + vl, len⟩) :: res.1, res.2)

/-- Scans a whole blockfile with suffix number `s` from its beginning. -/
def scanFile (s : Nat) (f : List Nat) : List (Block × Location) × Nat :=
  scanFileLoop s f.length 0 f

/-- Replays every blockfile in suffix order, listing recovered blocks newest
first (the order in which incremental indexing would have stacked them). -/
def buildIndexLoop : Nat → List (List Nat) → List (Block × Location)
  | _, [] => []
  | s, f :: rest => buildIndexLoop (s + 1) rest ++ ((scanFile s f).1).reverse

/-- The block number → Location index entries derivable from the files. -/
def blockIndexOf (files : List (List Nat)) : List (Nat × Location) :=
  (buildIndexLoop 0 files).map (fun e => (e.1.number, e.2))

/-- The block hash → block number index entries derivable from the files. -/
def hashIndexOf (files : List (List Nat)) : List (List Nat × Nat) :=
  (buildIndexLoop 0 files).map (fun e => (e.1.hash, e.1.number))

/-- Concatenated records of the blocks stored in one blockfile. -/
def fileBytes (g : List Block) : List Nat := (g.map encodeRecord).flatten

/-- Expected scan result for a file holding exactly the chain `g`, starting
at byte offset `off` of file suffix `s`. -/
def chainEntries (s : Nat) : Nat → List Block → List (Block × Location)
  | _, [] => []
  | off, b :: bl =>
    (b, ⟨s, off + (varintEncode (serializeBlock b).length).length,
      (serializeBlock b).length⟩) ::
      chainEntries s (off + (encodeRecord b).length) bl

/-! ## The blockfile manager

Modelled from the spec: the File Store, Checkpoint Manager, Index and
Blockchain Info Provider (spec sections 4.2, 4.3, 4.5, 4.7); the manager
and checkpoint structures keep the field names visible in the test suite. -/

/-- Durable marker of writer progress: active file suffix, active file write
offset and highest committed block number (spec section 3). -/
structure checkpointInfo where
  latestFileChunkSuffixNum : Nat
  latestFileChunksize : Nat
  lastBlockNumber : Nat
deriving DecidableEq, Repr

/-- State of the block-file manager: configuration, the numbered blockfiles
(entry `i` is the contents of blockfile suffix `i`), the in-memory
checkpoint, both index maps (newest entry first) and the durable checkpoint
slot. -/
structure blockfileMgr where
  maxFileSize : Nat
  files : List (List Nat)
  cpInfo : checkpointInfo
  blockIndex : List (Nat × Location)
  hashIndex : List (List Nat × Nat)
  persistedCpInfo : checkpointInfo
deriving DecidableEq, Repr

/-- A fresh empty ledger: one empty blockfile and the zero sentinel
checkpoint (spec section 4.3). -/
def newBlockfileMgr (maxFileSize : Nat) : blockfileMgr :=
  ⟨maxFileSize, [[]], ⟨0, 0, 0⟩, [], [], ⟨0, 0, 0⟩⟩

/-- Contents of the blockfile the checkpoint designates as active. -/
def activeFile (mgr : blockfileMgr) : List Nat :=
  mgr.files.getD mgr.cpInfo.latestFileChunkSuffixNum []

/-- Appends one block (spec sections 4.2, 4.3, 4.5): blocks must arrive in
ascending contiguous number order; before appending the record the store
rolls to a new file whenever the active file would exceed `maxFileSize`
(`maxFileSize = 0` meaning unbounded); the record is written whole, the
checkpoint is updated and persisted and the index records the new
locations. -/
def addBlock (mgr : blockfileMgr) (b : Block) : Option blockfileMgr :=
  if b.number = mgr.cpInfo.lastBlockNumber + 1 then
    let blockBytes := serializeBlock b
    let vlBytes := varintEncode blockBytes.length
    let record := vlBytes ++ blockBytes
    if mgr.maxFileSize ≠ 0 ∧
        mgr.maxFileSize < mgr.cpInfo.latestFileChunksize + record.length then
      let suffix := mgr.cpInfo.latestFileChunkSuffixNum + 1
      let cp : checkpointInfo := ⟨suffix, record.length, b.number⟩
      some
        { maxFileSize := mgr.maxFileSize
          files := mgr.files ++ [record]
          cpInfo := cp
          blockIndex :=
            (b.number, ⟨suffix, vlBytes.length, blockBytes.length⟩) :: mgr.blockIndex
          hashIndex := (b.hash, b.number) :: mgr.hashIndex
          persistedCpInfo := cp }
    else
      let suffix := mgr.cpInfo.latestFileChunkSuffixNum
      let off := mgr.cpInfo.latestFileChunksize
      let cp : checkpointInfo := ⟨suffix, off + record.length, b.number⟩
      some
        { maxFileSize := mgr.maxFileSize
          files := mgr.files.set suffix (activeFile mgr ++ record)
          cpInfo := cp
          blockIndex :=
            (b.number, ⟨suffix, off + vlBytes.length, blockBytes.length⟩) :: mgr.blockIndex
          hashIndex := (b.hash, b.number) :: mgr.hashIndex
          persistedCpInfo := cp }
  else none

/-- Appends a batch of blocks in order, failing when any single append
fails. -/
def addBlocks (mgr : blockfileMgr) : List Block → Option blockfileMgr
  | [] => some mgr
  | b :: bl =>
    match addBlock mgr b with
    | none => none
    | some m2 => addBlocks m2 bl

/-- Random-access read of the exact byte range a Location designates. -/
def readAt (mgr : blockfileMgr) (loc : Location) : List Nat :=
  ((mgr.files.getD loc.fileSuffixNum []).drop loc.offset).take loc.bytesLength

/-- Point lookup by block number: Index lookup, seek-and-read, decode. -/
def retrieveBlockByNumber (mgr : blockfileMgr) (n : Nat) : Option Block :=
  match List.lookup n mgr.blockIndex with
  | none => none
  | some loc => deserializeBlock (readAt mgr loc)

/-! ## Block iterator

Modelled from the spec: `iterate(startNumber)` produces a lazy forward-only
finite sequence ending at the `lastBlockNumber` observed at iterator
creation time (spec section 4.6); named after the `retrieveBlocks` method
exercised by `testBlockfileMgrBlockIterator`. -/

/-- An open block iterator: the manager state and last block number captured
at creation, plus the cursor. -/
structure blocksItr where
  mgr : blockfileMgr
  maxBlockNumAvailable : Nat
  blockNumToRetrieve : Nat

/-- Opens an iterator starting at `startNum`. -/
def retrieveBlocks (mgr : blockfileMgr) (startNum : Nat) : blocksItr :=
  ⟨mgr, mgr.cpInfo.lastBlockNumber, startNum⟩

/-- One iterator step: exhausted past the creation-time last block number,
otherwise a point lookup of the cursor block. -/
def itrNext (it : blocksItr) : Option (Block × blocksItr) :=
  if it.maxBlockNumAvailable < it.blockNumToRetrieve then none
  else
    match retrieveBlockByNumber it.mgr it.blockNumToRetrieve with
    | none => none
    | some b => some (b, ⟨it.mgr, it.maxBlockNumAvailable, it.blockNumToRetrieve + 1⟩)

/-- Drains an iterator with explicit fuel. -/
def itrToListLoop : Nat → blocksItr → List Block
  | 0, _ => []
  | fuel + 1, it =>
    match itrNext it with
    | none => []
    | some (b, it2) => b :: itrToListLoop fuel it2

/-- The full sequence an iterator yields (its range is finite by
construction, so fuel covering the whole range drains it). -/
def itrToList (it : blocksItr) : List Block :=
  itrToListLoop (it.maxBlockNumAvailable + 1 - it.blockNumToRetrieve) it

/-! ## Blockchain info provider -/

/-- Height plus head and previous block hashes (spec section 4.7). -/
structure BlockchainInfo where
  height : Nat
  currentBlockHash : List Nat
  previousBlockHash : List Nat
deriving DecidableEq, Repr

/-- Hash of block `n` obtained through the Index; empty when not found. -/
def hashOfBlockNum (mgr : blockfileMgr) (n : Nat) : List Nat :=
  match retrieveBlockByNumber mgr n with
  | some b => b.hash
  | none => []

/-- Derives height and head/previous hashes from checkpoint and index state;
an empty ledger reports height 0 and empty hashes (spec section 4.7). -/
def getBlockchainInfo (mgr : blockfileMgr) : BlockchainInfo :=
  if mgr.cpInfo.lastBlockNumber = 0 then ⟨0, [], []⟩
  else
    ⟨mgr.cpInfo.lastBlockNumber,
      hashOfBlockNum mgr mgr.cpInfo.lastBlockNumber,
      hashOfBlockNum mgr (mgr.cpInfo.lastBlockNumber - 1)⟩

/-! ## Recovery manager

Modelled from the spec: on startup the persisted checkpoint names the active
file; the file is scanned from its beginning, decoding records until the end
of file at a record boundary or a short/malformed read; in the crash case
the file is truncated to the last complete record boundary; the reconciled
checkpoint (suffix, true offset, number of the last good block — kept from
the checkpoint hint when the scan recovers no record) replaces the persisted
one and is re-persisted; the index is rebuilt from the recovered files
(spec section 4.4). -/

/-- Startup reconciliation of the durable checkpoint against the physical
tail of the active file. -/
def recoverMgr (max : Nat) (files : List (List Nat)) (cp : checkpointInfo) :
    blockfileMgr :=
  let s := cp.latestFileChunkSuffixNum
  let active := files.getD s []
  let scanned := scanFile s active
  let truncated := active.take scanned.2
  let files2 := files.set s truncated
  let lastNum :=
    match scanned.1.getLast? with
    | some e => e.1.number
    | none => cp.lastBlockNumber
  let cp2 : checkpointInfo := ⟨s, scanned.2, lastNum⟩
  { maxFileSize := max
    files := files2
    cpInfo := cp2
    blockIndex := blockIndexOf files2
    hashIndex := hashIndexOf files2
    persistedCpInfo := cp2 }

/-! ## Abstract view: the manager as a list of per-file block groups -/

/-- The group of blocks held by the active (last) file. -/
def lastGroup (gs : List (List Block)) : List Block := gs.getD (gs.length - 1) []

/-- Abstract effect of one append on the per-file grouping: roll to a fresh
file exactly when the File Store's capacity check fires. -/
def groupsAppend (max : Nat) (gs : List (List Block)) (b : Block) :
    List (List Block) :=
  if max ≠ 0 ∧ max < (fileBytes (lastGroup gs)).length + (encodeRecord b).length then
    gs ++ [[b]]
  else gs.dropLast ++ [lastGroup gs ++ [b]]

/-- The concrete manager state determined by a per-file grouping of the
appended blocks. -/
def mgrOfGroups (max : Nat) (gs : List (List Block)) : blockfileMgr :=
  let files := gs.map fileBytes
  let cp : checkpointInfo :=
    ⟨gs.length - 1, (fileBytes (lastGroup gs)).length, gs.flatten.length⟩
  { maxFileSize := max
    files := files
    cpInfo := cp
    blockIndex := blockIndexOf files
    hashIndex := hashIndexOf files
    persistedCpInfo := cp }

/-! ## Record-level lemmas -/

theorem encodeRecord_ne_nil (b : Block) : encodeRecord b ≠ [] := by
  unfold encodeRecord
  intro h
  exact varintEncode_ne_nil _ (List.append_eq_nil.mp h).1

theorem decodeRecord_nil : decodeRecord [] = none := rfl

theorem decodeRecord_encodeRecord (b : Block) (rest : List Nat) :
    decodeRecord (encodeRecord b ++ rest) =
      some (b, (varintEncode (serializeBlock b).length).length,
        (serializeBlock b).length, rest) := by
  unfold encodeRecord
  rw [List.append_assoc]
  simp only [decodeRecord, parseVarint_varintEncode]
  rw [if_pos (by simp)]
  rw [List.take_left, List.drop_left, deserializeBlock_serializeBlock]
  simp [List.length_append]

theorem decodeRecord_spec (bs : List Nat) (b : Block) (vl len : Nat)
    (rest : List Nat) (h : decodeRecord bs = some (b, vl, len, rest)) :
    vl + len + rest.length = bs.length ∧ 0 < vl := by
  unfold decodeRecord at h
  cases hv : parseVarint bs with
  | none => rw [hv] at h; simp at h
  | some p =>
    obtain ⟨len0, r⟩ := p
    rw [hv] at h
    dsimp only [] at h
    by_cases hle : len0 ≤ r.length
    · rw [if_pos hle] at h
      cases hd : deserializeBlock (r.take len0) with
      | none => rw [hd] at h; simp at h
      | some b0 =>
        rw [hd] at h
        simp only [Option.some.injEq, Prod.mk.injEq] at h
        obtain ⟨-, hvl, hlen, hrest⟩ := h
        have hshrink := parseVarint_shrink bs len0 r hv
        subst hvl hlen
        rw [← hrest]
        simp only [List.length_drop]
        omega
    · rw [if_neg hle] at h; simp at h

/-- Decoding the truncation of an in-flight record always fails: a strict
prefix of the length prefix is unreadable, and once the length prefix is
complete the payload is short. -/
theorem decodeRecord_partial (len2 : Nat) (payload : List Nat) (M : Nat)
    (hp : payload.length = len2) (hM0 : 0 < M)
    (hM : M < (varintEncode len2).length + len2) :
    decodeRecord ((varintEncode len2 ++ payload).take M) = none := by
  by_cases hvl : M < (varintEncode len2).length
  · rw [List.take_append_of_le_length (le_of_lt hvl)]
    unfold decodeRecord
    rw [parseVarint_take_varintEncode len2 M hvl]
  · push_neg at hvl
    have hsplit : (varintEncode len2 ++ payload).take M =
        varintEncode len2 ++ payload.take (M - (varintEncode len2).length) := by
      obtain ⟨i, hi⟩ := Nat.exists_eq_add_of_le hvl
      subst hi
      rw [List.take_append, Nat.add_sub_cancel_left]
    rw [hsplit]
    simp only [decodeRecord, parseVarint_varintEncode]
    rw [if_neg (by simp [List.length_take]; omega)]

/-! ## Scanning lemmas -/

theorem scanFileLoop_chain (s : Nat) (g : List Block) :
    ∀ (tail : List Nat) (off fuel : Nat), decodeRecord tail = none →
      (fileBytes g ++ tail).length ≤ fuel →
      scanFileLoop s fuel off (fileBytes g ++ tail) =
        (chainEntries s off g, off + (fileBytes g).length) := by
  induction g with
  | nil =>
    intro tail off fuel hnone hfuel
    simp only [fileBytes, List.map_nil, List.flatten_nil, List.nil_append,
      List.length_nil, Nat.add_zero, chainEntries]
    cases fuel with
    | zero => simp [scanFileLoop]
    | succ f => simp [scanFileLoop, hnone]
  | cons b bl ih =>
    intro tail off fuel hnone hfuel
    have hfb : fileBytes (b :: bl) = encodeRecord b ++ fileBytes bl := by
      simp [fileBytes]
    rw [hfb] at hfuel ⊢
    rw [List.append_assoc] at hfuel ⊢
    have hne : 0 < (encodeRecord b).length :=
      List.length_pos.mpr (encodeRecord_ne_nil b)
    cases fuel with
    | zero =>
      exfalso
      simp only [List.length_append] at hfuel
      omega
    | succ f =>
      simp only [scanFileLoop, decodeRecord_encodeRecord]
      have hrec : (fileBytes bl ++ tail).length ≤ f := by
        have := hfuel
        simp only [List.length_append] at this ⊢
        have hvlen : (encodeRecord b).length =
            (varintEncode (serializeBlock b).length).length +
              (serializeBlock b).length := by
          simp [encodeRecord, List.length_append]
        omega
      rw [ih tail _ f hnone hrec]
      have hvlen : (encodeRecord b).length =
          (varintEncode (serializeBlock b).length).length +
            (serializeBlock b).length := by
        simp [encodeRecord, List.length_append]
      have hflen : (fileBytes (b :: bl)).length =
          (encodeRecord b).length + (fileBytes bl).length := by
        simp [fileBytes, List.length_append]
      have hk : (encodeRecord b ++ fileBytes bl).length =
          (encodeRecord b).length + (fileBytes bl).length := by
        simp [List.length_append]
      rw [Prod.mk.injEq]
      constructor
      · have hAB : off + (varintEncode (serializeBlock b).length).length +
            (serializeBlock b).length = off + (encodeRecord b).length := by omega
        simp only [chainEntries]
        rw [hAB]
      · omega

theorem scanFile_fileBytes (s : Nat) (g : List Block) :
    scanFile s (fileBytes g) = (chainEntries s 0 g, (fileBytes g).length) := by
  have h := scanFileLoop_chain s g [] 0 (fileBytes g).length decodeRecord_nil
    (by simp)
  rw [List.append_nil] at h
  unfold scanFile
  rw [h]
  simp

theorem scanFile_fileBytes_garbage (s : Nat) (g : List Block) (tail : List Nat)
    (hnone : decodeRecord tail = none) :
    scanFile s (fileBytes g ++ tail) = (chainEntries s 0 g, (fileBytes g).length) := by
  unfold scanFile
  rw [scanFileLoop_chain s g tail 0 _ hnone (le_refl _)]
  simp

/-! ## Chain-entry lemmas -/

theorem chainEntries_map_fst (s : Nat) :
    ∀ (off : Nat) (g : List Block), (chainEntries s off g).map Prod.fst = g := by
  intro off g
  induction g generalizing off with
  | nil => simp [chainEntries]
  | cons b bl ih => simp [chainEntries, ih]

theorem chainEntries_append (s : Nat) (g1 : List Block) :
    ∀ (g2 : List Block) (off : Nat),
      chainEntries s off (g1 ++ g2) =
        chainEntries s off g1 ++ chainEntries s (off + (fileBytes g1).length) g2 := by
  induction g1 with
  | nil => intro g2 off; simp [chainEntries, fileBytes]
  | cons b bl ih =>
    intro g2 off
    simp only [List.cons_append, chainEntries, List.append_eq]
    rw [ih]
    have hoff : off + (encodeRecord b).length + (fileBytes bl).length =
        off + (fileBytes (b :: bl)).length := by
      simp only [fileBytes, List.map_cons, List.flatten_cons, List.length_append]
      omega
    rw [hoff]

theorem chainEntries_mem (s : Nat) (g : List Block) :
    ∀ (off : Nat) (e : Block × Location), e ∈ chainEntries s off g →
      e.2.fileSuffixNum = s ∧ off ≤ e.2.offset ∧
        e.2.offset + e.2.bytesLength ≤ off + (fileBytes g).length := by
  induction g with
  | nil => intro off e h; simp [chainEntries] at h
  | cons b bl ih =>
    intro off e h
    simp only [chainEntries, List.mem_cons] at h
    have hvlen : (encodeRecord b).length =
        (varintEncode (serializeBlock b).length).length +
          (serializeBlock b).length := by
      simp [encodeRecord, List.length_append]
    have hflen : (fileBytes (b :: bl)).length =
        (encodeRecord b).length + (fileBytes bl).length := by
      simp only [fileBytes, List.map_cons, List.flatten_cons, List.length_append]
    rcases h with h | h
    · subst h
      dsimp only
      exact ⟨rfl, by omega, by omega⟩
    · obtain ⟨h1, h2, h3⟩ := ih (off + (encodeRecord b).length) e h
      exact ⟨h1, by omega, by omega⟩

theorem chainEntries_read (s : Nat) (g : List Block) :
    ∀ (pre : List Nat) (e : Block × Location), e ∈ chainEntries s pre.length g →
      ((pre ++ fileBytes g).drop e.2.offset).take e.2.bytesLength =
        serializeBlock e.1 := by
  induction g with
  | nil => intro pre e h; simp [chainEntries] at h
  | cons b bl ih =>
    intro pre e h
    simp only [chainEntries, List.mem_cons] at h
    rcases h with h | h
    · subst h
      simp only []
      have hsplit : pre ++ fileBytes (b :: bl) =
          (pre ++ varintEncode (serializeBlock b).length) ++
            (serializeBlock b ++ fileBytes bl) := by
        simp [fileBytes, encodeRecord, List.append_assoc]
      rw [hsplit]
      have hlen : pre.length + (varintEncode (serializeBlock b).length).length =
          (pre ++ varintEncode (serializeBlock b).length).length := by
        simp [List.length_append]
      rw [hlen, List.drop_left]
      exact List.take_left _ _
    · have hpre : pre.length + (encodeRecord b).length =
          (pre ++ encodeRecord b).length := by
        simp [List.length_append]
      rw [hpre] at h
      have := ih (pre ++ encodeRecord b) e h
      rw [List.append_assoc] at this
      have hfb : encodeRecord b ++ fileBytes bl = fileBytes (b :: bl) := by
        simp [fileBytes]
      rw [hfb] at this
      exact this

/-! ## Index replay lemmas -/

theorem buildIndexLoop_append (f : List Nat) :
    ∀ (fs : List (List Nat)) (s : Nat),
      buildIndexLoop s (fs ++ [f]) =
        ((scanFile (s + fs.length) f).1).reverse ++ buildIndexLoop s fs := by
  intro fs
  induction fs with
  | nil => intro s; simp [buildIndexLoop]
  | cons f0 fs ih =>
    intro s
    simp only [List.cons_append, buildIndexLoop, List.length_cons, List.append_eq]
    rw [ih (s + 1), List.append_assoc]
    have hs : s + 1 + fs.length = s + (fs.length + 1) := by omega
    rw [hs]

theorem getD_map_fileBytes (gs : List (List Block)) (i : Nat) (h : i < gs.length) :
    (gs.map fileBytes).getD i [] = fileBytes (gs.getD i []) := by
  rw [List.getD_eq_getElem?_getD, List.getD_eq_getElem?_getD, List.getElem?_map,
    List.getElem?_eq_getElem h]
  simp

theorem mem_buildIndexLoop_groups (gs : List (List Block)) (e : Block × Location)
    (h : e ∈ buildIndexLoop 0 (gs.map fileBytes)) :
    ∃ i, i < gs.length ∧ e ∈ chainEntries i 0 (gs.getD i []) := by
  induction gs using List.reverseRecOn with
  | nil => simp [buildIndexLoop] at h
  | append_singleton gs g ih =>
    rw [List.map_append] at h
    simp only [List.map_cons, List.map_nil] at h
    rw [buildIndexLoop_append, scanFile_fileBytes] at h
    rcases List.mem_append.mp h with h1 | h2
    · rw [List.mem_reverse] at h1
      refine ⟨gs.length, by simp, ?_⟩
      have hget : (gs ++ [g]).getD gs.length [] = g := by
        rw [List.getD_eq_getElem?_getD, List.getElem?_append_right (le_refl _)]
        simp
      rw [hget]
      simpa using h1
    · obtain ⟨i, hi, hmem⟩ := ih h2
      refine ⟨i, by simp; omega, ?_⟩
      have hget : (gs ++ [g]).getD i [] = gs.getD i [] := by
        rw [List.getD_eq_getElem?_getD, List.getD_eq_getElem?_getD,
          List.getElem?_append_left hi]
      rw [hget]
      exact hmem

theorem buildIndexLoop_groups_map_fst (gs : List (List Block)) :
    (buildIndexLoop 0 (gs.map fileBytes)).map Prod.fst = gs.flatten.reverse := by
  induction gs using List.reverseRecOn with
  | nil => simp [buildIndexLoop]
  | append_singleton gs g ih =>
    rw [List.map_append]
    simp only [List.map_cons, List.map_nil]
    rw [buildIndexLoop_append, scanFile_fileBytes]
    rw [List.map_append, List.map_reverse, chainEntries_map_fst, ih]
    rw [List.flatten_append]
    simp [List.reverse_append]

/-! ## Association-list lookup lemmas -/

theorem lookup_mem {β : Type} (es : List (Nat × β)) (n : Nat) (v : β)
    (h : List.lookup n es = some v) : (n, v) ∈ es := by
  induction es with
  | nil => simp [List.lookup] at h
  | cons p es ih =>
    obtain ⟨k, b⟩ := p
    by_cases hnk : n = k
    · subst hnk
      rw [List.lookup_cons] at h
      simp at h
      subst h
      exact List.mem_cons_self _ _
    · rw [List.lookup_cons] at h
      have hb : (n == k) = false := by simp [hnk]
      rw [hb] at h
      exact List.mem_cons_of_mem _ (ih h)

theorem lookup_eq_none {β : Type} (es : List (Nat × β)) (n : Nat)
    (h : ∀ p ∈ es, p.1 ≠ n) : List.lookup n es = none := by
  induction es with
  | nil => simp [List.lookup]
  | cons p es ih =>
    obtain ⟨k, b⟩ := p
    rw [List.lookup_cons]
    have hk : k ≠ n := h (k, b) (List.mem_cons_self _ _)
    have hb : (n == k) = false := by simp; omega
    rw [hb]
    exact ih fun q hq => h q (List.mem_cons_of_mem _ hq)

theorem lookup_isSome_of_mem {β : Type} (es : List (Nat × β)) (n : Nat)
    (h : n ∈ es.map Prod.fst) : ∃ v, List.lookup n es = some v := by
  induction es with
  | nil => simp at h
  | cons p es ih =>
    obtain ⟨k, b⟩ := p
    by_cases hnk : n = k
    · subst hnk
      exact ⟨b, by rw [List.lookup_cons]; simp⟩
    · have hb : (n == k) = false := by simp [hnk]
      rw [List.map_cons] at h
      rcases List.mem_cons.mp h with h1 | h2
      · exact absurd h1 hnk
      · obtain ⟨v, hv⟩ := ih h2
        exact ⟨v, by rw [List.lookup_cons, hb]; exact hv⟩

/-! ## Last-group helpers -/

theorem dropLast_append_lastGroup (gs : List (List Block)) (h : gs ≠ []) :
    gs.dropLast ++ [lastGroup gs] = gs := by
  induction gs with
  | nil => exact absurd rfl h
  | cons g t ih =>
    cases t with
    | nil => simp [lastGroup]
    | cons g2 t2 =>
      have hrec := ih (by simp)
      simp only [lastGroup, List.length_cons, Nat.add_sub_cancel,
        List.getD_cons_succ] at hrec ⊢
      rw [List.dropLast_cons₂, List.cons_append, hrec]

theorem lastGroup_append (gs : List (List Block)) (g : List Block) :
    lastGroup (gs ++ [g]) = g := by
  unfold lastGroup
  rw [List.getD_eq_getElem?_getD, List.length_append]
  simp only [List.length_cons, List.length_nil, Nat.zero_add, Nat.add_sub_cancel]
  rw [List.getElem?_append_right (le_refl _)]
  simp

theorem flatten_dropLast_lastGroup (gs : List (List Block)) (h : gs ≠ []) :
    gs.flatten = gs.dropLast.flatten ++ lastGroup gs := by
  conv_lhs => rw [← dropLast_append_lastGroup gs h]
  rw [List.flatten_append]
  simp

/-! ## Chain states and retrieval correctness -/

/-- Blocks `blks` are numbered contiguously `1..blks.length`. -/
def Numbered (blks : List Block) : Prop :=
  ∀ k (h : k < blks.length), (blks.get ⟨k, h⟩).number = k + 1

/-- A reachable per-file grouping: at least one (possibly empty) file, the
active file only empty on the fresh ledger, and contiguous numbering. -/
structure Chain (gs : List (List Block)) : Prop where
  ne : gs ≠ []
  lastNe : lastGroup gs = [] → gs.flatten = []
  numbered : Numbered gs.flatten

theorem readAt_mgrOfGroups (max : Nat) (gs : List (List Block))
    (e : Block × Location) (h : e ∈ buildIndexLoop 0 (gs.map fileBytes)) :
    readAt (mgrOfGroups max gs) e.2 = serializeBlock e.1 := by
  obtain ⟨i, hi, hmem⟩ := mem_buildIndexLoop_groups gs e h
  have hsfx := (chainEntries_mem i (gs.getD i []) 0 e hmem).1
  show ((( (gs.map fileBytes)).getD e.2.fileSuffixNum []).drop e.2.offset).take
    e.2.bytesLength = serializeBlock e.1
  rw [hsfx, getD_map_fileBytes gs i hi]
  have hread := chainEntries_read i (gs.getD i []) [] e (by simpa using hmem)
  simpa using hread

theorem blockIndex_mgrOfGroups (max : Nat) (gs : List (List Block)) :
    (mgrOfGroups max gs).blockIndex =
      (buildIndexLoop 0 (gs.map fileBytes)).map (fun e => (e.1.number, e.2)) := rfl

theorem retrieve_mgrOfGroups (max : Nat) (gs : List (List Block)) (hc : Chain gs)
    (k : Nat) (hk : k < gs.flatten.length) :
    retrieveBlockByNumber (mgrOfGroups max gs) (k + 1) =
      some (gs.flatten.get ⟨k, hk⟩) := by
  have hfst : (buildIndexLoop 0 (gs.map fileBytes)).map Prod.fst =
      gs.flatten.reverse := buildIndexLoop_groups_map_fst gs
  have hkeys : ((buildIndexLoop 0 (gs.map fileBytes)).map
      (fun e => (e.1.number, e.2))).map Prod.fst =
      ((buildIndexLoop 0 (gs.map fileBytes)).map Prod.fst).map Block.number := by
    simp [List.map_map]
  have hmemk : (k + 1) ∈ ((buildIndexLoop 0 (gs.map fileBytes)).map
      (fun e => (e.1.number, e.2))).map Prod.fst := by
    rw [hkeys, hfst]
    have hg : gs.flatten.get ⟨k, hk⟩ ∈ gs.flatten.reverse :=
      List.mem_reverse.mpr (List.get_mem _ _ hk)
    have := List.mem_map_of_mem Block.number hg
    rw [hc.numbered k hk] at this
    exact this
  obtain ⟨loc, hlk⟩ := lookup_isSome_of_mem _ _ hmemk
  unfold retrieveBlockByNumber
  rw [blockIndex_mgrOfGroups, hlk]
  have hpm := lookup_mem _ _ _ hlk
  rcases List.mem_map.mp hpm with ⟨e, he, heq⟩
  have hn : e.1.number = k + 1 := by
    have := congrArg Prod.fst heq
    simpa using this
  have hl : e.2 = loc := by
    have := congrArg Prod.snd heq
    simpa using this
  have hbm : e.1 ∈ gs.flatten := by
    have hm := List.mem_map_of_mem Prod.fst he
    rw [hfst, List.mem_reverse] at hm
    exact hm
  obtain ⟨j, hj⟩ := List.mem_iff_get.mp hbm
  have hjn := hc.numbered j.1 j.2
  simp only [Fin.eta] at hjn
  have hjk : j.1 = k := by
    rw [hj] at hjn
    omega
  dsimp only
  rw [← hl, readAt_mgrOfGroups max gs e he, deserializeBlock_serializeBlock]
  rw [← hj]
  congr 1
  exact congrArg _ (Fin.ext hjk)

theorem retrieve_mgrOfGroups_zero (max : Nat) (gs : List (List Block))
    (hc : Chain gs) :
    retrieveBlockByNumber (mgrOfGroups max gs) 0 = none := by
  unfold retrieveBlockByNumber
  rw [blockIndex_mgrOfGroups]
  rw [lookup_eq_none]
  intro p hp
  rcases List.mem_map.mp hp with ⟨e, he, heq⟩
  have hbm : e.1 ∈ gs.flatten := by
    have hm := List.mem_map_of_mem Prod.fst he
    rw [buildIndexLoop_groups_map_fst, List.mem_reverse] at hm
    exact hm
  obtain ⟨j, hj⟩ := List.mem_iff_get.mp hbm
  have hjn := hc.numbered j.1 j.2
  simp only [Fin.eta] at hjn
  have : p.1 = e.1.number := by
    have := congrArg Prod.fst heq
    simpa using this.symm
  rw [this, ← hj]
  omega

/-! ## Append preservation -/

theorem fileBytes_singleton (b : Block) : fileBytes [b] = encodeRecord b := by
  simp [fileBytes]

theorem fileBytes_append (g1 g2 : List Block) :
    fileBytes (g1 ++ g2) = fileBytes g1 ++ fileBytes g2 := by
  simp [fileBytes]

theorem set_append_last {α : Type} (A : List α) (x y : α) :
    (A ++ [x]).set A.length y = A ++ [y] := by
  induction A with
  | nil => rfl
  | cons a A ih =>
    simp only [List.cons_append, List.length_cons, List.set_cons_succ, ih]

theorem numbered_append (blks : List Block) (b : Block) (hn : Numbered blks)
    (hb : b.number = blks.length + 1) : Numbered (blks ++ [b]) := by
  intro k hk
  have hlen : (blks ++ [b]).length = blks.length + 1 := by simp
  rw [List.get_eq_getElem]
  by_cases h : k < blks.length
  · rw [List.getElem_append_left h]
    have := hn k h
    rw [List.get_eq_getElem] at this
    exact this
  · have hk2 : k = blks.length := by rw [hlen] at hk; omega
    subst hk2
    rw [List.getElem_append_right (le_refl _)]
    simpa using hb

theorem buildIndexLoop_roll (gs : List (List Block)) (b : Block) :
    buildIndexLoop 0 ((gs ++ [[b]]).map fileBytes) =
      (b, ⟨gs.length, (varintEncode (serializeBlock b).length).length,
        (serializeBlock b).length⟩) :: buildIndexLoop 0 (gs.map fileBytes) := by
  rw [List.map_append]
  simp only [List.map_cons, List.map_nil]
  rw [buildIndexLoop_append, scanFile_fileBytes]
  simp [chainEntries, List.length_map]

theorem buildIndexLoop_noroll (gs : List (List Block)) (b : Block)
    (h : gs ≠ []) :
    buildIndexLoop 0 ((gs.dropLast ++ [lastGroup gs ++ [b]]).map fileBytes) =
      (b, ⟨gs.length - 1,
        (fileBytes (lastGroup gs)).length +
          (varintEncode (serializeBlock b).length).length,
        (serializeBlock b).length⟩) :: buildIndexLoop 0 (gs.map fileBytes) := by
  conv_rhs => rw [← dropLast_append_lastGroup gs h]
  rw [List.map_append, List.map_append]
  simp only [List.map_cons, List.map_nil]
  rw [buildIndexLoop_append, buildIndexLoop_append]
  rw [scanFile_fileBytes, scanFile_fileBytes]
  rw [chainEntries_append]
  have hlen : gs.dropLast.length = gs.length - 1 := List.length_dropLast gs
  rw [List.reverse_append]
  simp only [chainEntries, List.reverse_cons, List.reverse_nil, List.nil_append,
    List.length_map, hlen, Nat.zero_add, List.cons_append]
  rw [dropLast_append_lastGroup gs h]

theorem activeFile_mgrOfGroups (max : Nat) (gs : List (List Block))
    (h : gs ≠ []) :
    activeFile (mgrOfGroups max gs) = fileBytes (lastGroup gs) := by
  unfold activeFile
  show (gs.map fileBytes).getD (gs.length - 1) [] = _
  have hlt : gs.length - 1 < gs.length := by
    have : 1 ≤ gs.length := by
      cases gs
      · exact absurd rfl h
      · simp
    omega
  rw [getD_map_fileBytes gs _ hlt]
  rfl

theorem chain_groupsAppend (max : Nat) (gs : List (List Block)) (b : Block)
    (hc : Chain gs) (hb : b.number = gs.flatten.length + 1) :
    Chain (groupsAppend max gs b) ∧
      (groupsAppend max gs b).flatten = gs.flatten ++ [b] := by
  unfold groupsAppend
  by_cases hcond : max ≠ 0 ∧
      max < (fileBytes (lastGroup gs)).length + (encodeRecord b).length
  · rw [if_pos hcond]
    have hfl : (gs ++ [[b]]).flatten = gs.flatten ++ [b] := by simp
    refine ⟨⟨by simp, ?_, ?_⟩, hfl⟩
    · intro hlast
      rw [lastGroup_append] at hlast
      simp at hlast
    · rw [hfl]
      exact numbered_append _ _ hc.numbered hb
  · rw [if_neg hcond]
    have hfl : (gs.dropLast ++ [lastGroup gs ++ [b]]).flatten =
        gs.flatten ++ [b] := by
      rw [List.flatten_append]
      have h1 : ([lastGroup gs ++ [b]] : List (List Block)).flatten =
          lastGroup gs ++ [b] := by simp
      rw [h1, ← List.append_assoc, ← flatten_dropLast_lastGroup gs hc.ne]
    refine ⟨⟨by simp, ?_, ?_⟩, hfl⟩
    · intro hlast
      rw [lastGroup_append] at hlast
      simp at hlast
    · rw [hfl]
      exact numbered_append _ _ hc.numbered hb

theorem addBlock_groups (max : Nat) (gs : List (List Block)) (b : Block)
    (hc : Chain gs) (hb : b.number = gs.flatten.length + 1) :
    addBlock (mgrOfGroups max gs) b =
      some (mgrOfGroups max (groupsAppend max gs b)) := by
  have hlen1 : 1 ≤ gs.length := by
    cases gs
    · exact absurd rfl hc.ne
    · simp
  have hLL : gs.length - 1 + 1 = gs.length := by omega
  unfold addBlock groupsAppend
  rw [if_pos (show b.number = (mgrOfGroups max gs).cpInfo.lastBlockNumber + 1
    from hb)]
  by_cases hcond : max ≠ 0 ∧
      max < (fileBytes (lastGroup gs)).length + (encodeRecord b).length
  · rw [if_pos hcond]
    rw [if_pos (show (mgrOfGroups max gs).maxFileSize ≠ 0 ∧
      (mgrOfGroups max gs).maxFileSize <
        (mgrOfGroups max gs).cpInfo.latestFileChunksize +
          (varintEncode (serializeBlock b).length ++ serializeBlock b).length
      from hcond)]
    have hfiles : (mgrOfGroups max gs).files ++
        [varintEncode (serializeBlock b).length ++ serializeBlock b] =
        (gs ++ [[b]]).map fileBytes := by
      show gs.map fileBytes ++ _ = _
      rw [List.map_append]
      simp [fileBytes, encodeRecord]
    have hsfx : (mgrOfGroups max gs).cpInfo.latestFileChunkSuffixNum + 1 =
        (gs ++ [[b]]).length - 1 := by
      show gs.length - 1 + 1 = _
      simp
      omega
    have hchunk : (varintEncode (serializeBlock b).length ++
        serializeBlock b).length =
        (fileBytes (lastGroup (gs ++ [[b]]))).length := by
      rw [lastGroup_append]
      simp [fileBytes, encodeRecord]
    have hlast : b.number = (gs ++ [[b]]).flatten.length := by
      rw [hb]
      simp
    have hbi : (b.number, (⟨(mgrOfGroups max gs).cpInfo.latestFileChunkSuffixNum + 1,
        (varintEncode (serializeBlock b).length).length,
        (serializeBlock b).length⟩ : Location)) ::
          (mgrOfGroups max gs).blockIndex =
        blockIndexOf ((gs ++ [[b]]).map fileBytes) := by
      unfold blockIndexOf
      rw [buildIndexLoop_roll, List.map_cons]
      show _ = (b.number, (⟨gs.length, _, _⟩ : Location)) :: _
      rw [show (mgrOfGroups max gs).cpInfo.latestFileChunkSuffixNum + 1 =
        gs.length from hLL]
      rfl
    have hhi : (b.hash, b.number) :: (mgrOfGroups max gs).hashIndex =
        hashIndexOf ((gs ++ [[b]]).map fileBytes) := by
      unfold hashIndexOf
      rw [buildIndexLoop_roll, List.map_cons]
      rfl
    simp only [mgrOfGroups, Option.some.injEq, blockfileMgr.mk.injEq,
      checkpointInfo.mk.injEq]
    exact ⟨trivial, hfiles, ⟨hsfx, hchunk, hlast⟩, hbi, hhi, hsfx, hchunk, hlast⟩
  · rw [if_neg hcond]
    rw [if_neg (show ¬ ((mgrOfGroups max gs).maxFileSize ≠ 0 ∧
      (mgrOfGroups max gs).maxFileSize <
        (mgrOfGroups max gs).cpInfo.latestFileChunksize +
          (varintEncode (serializeBlock b).length ++ serializeBlock b).length)
      from hcond)]
    have hmapgs : gs.map fileBytes = gs.dropLast.map fileBytes ++
        [fileBytes (lastGroup gs)] := by
      conv_lhs => rw [← dropLast_append_lastGroup gs hc.ne]
      rw [List.map_append]
      rfl
    have hfiles : (mgrOfGroups max gs).files.set
        (mgrOfGroups max gs).cpInfo.latestFileChunkSuffixNum
        (activeFile (mgrOfGroups max gs) ++
          (varintEncode (serializeBlock b).length ++ serializeBlock b)) =
        (gs.dropLast ++ [lastGroup gs ++ [b]]).map fileBytes := by
      show (gs.map fileBytes).set (gs.length - 1) _ = _
      rw [activeFile_mgrOfGroups max gs hc.ne, hmapgs]
      have hdl : gs.dropLast.length = gs.length - 1 := List.length_dropLast gs
      rw [show gs.length - 1 = (gs.dropLast.map fileBytes).length by
        simp [hdl]]
      rw [set_append_last]
      rw [List.map_append]
      simp [fileBytes, encodeRecord]
    have hsfx : (mgrOfGroups max gs).cpInfo.latestFileChunkSuffixNum =
        (gs.dropLast ++ [lastGroup gs ++ [b]]).length - 1 := by
      show gs.length - 1 = _
      simp [List.length_dropLast]
    have hchunk : (mgrOfGroups max gs).cpInfo.latestFileChunksize +
        (varintEncode (serializeBlock b).length ++ serializeBlock b).length =
        (fileBytes (lastGroup (gs.dropLast ++ [lastGroup gs ++ [b]]))).length := by
      show (fileBytes (lastGroup gs)).length + _ = _
      rw [lastGroup_append, fileBytes_append, fileBytes_singleton]
      simp [encodeRecord]
    have hlast : b.number = (gs.dropLast ++ [lastGroup gs ++ [b]]).flatten.length := by
      rw [hb]
      rw [List.flatten_append]
      have h1 : ([lastGroup gs ++ [b]] : List (List Block)).flatten =
          lastGroup gs ++ [b] := by simp
      rw [h1, ← List.append_assoc, ← flatten_dropLast_lastGroup gs hc.ne]
      simp
    have hbi : (b.number, (⟨(mgrOfGroups max gs).cpInfo.latestFileChunkSuffixNum,
        (mgrOfGroups max gs).cpInfo.latestFileChunksize +
          (varintEncode (serializeBlock b).length).length,
        (serializeBlock b).length⟩ : Location)) ::
          (mgrOfGroups max gs).blockIndex =
        blockIndexOf ((gs.dropLast ++ [lastGroup gs ++ [b]]).map fileBytes) := by
      unfold blockIndexOf
      rw [buildIndexLoop_noroll gs b hc.ne, List.map_cons]
      rfl
    have hhi : (b.hash, b.number) :: (mgrOfGroups max gs).hashIndex =
        hashIndexOf ((gs.dropLast ++ [lastGroup gs ++ [b]]).map fileBytes) := by
      unfold hashIndexOf
      rw [buildIndexLoop_noroll gs b hc.ne, List.map_cons]
      rfl
    simp only [mgrOfGroups, Option.some.injEq, blockfileMgr.mk.injEq,
      checkpointInfo.mk.injEq]
    exact ⟨trivial, hfiles, ⟨hsfx, hchunk, hlast⟩, hbi, hhi, hsfx, hchunk, hlast⟩

theorem newBlockfileMgr_groups (max : Nat) :
    newBlockfileMgr max = mgrOfGroups max [[]] := rfl

theorem chain_init : Chain [[]] :=
  ⟨by simp, fun _ => rfl, fun k h => absurd h (by simp [List.flatten])⟩

theorem addBlock_number (mgr : blockfileMgr) (b : Block) (m2 : blockfileMgr)
    (h : addBlock mgr b = some m2) :
    b.number = mgr.cpInfo.lastBlockNumber + 1 := by
  by_contra hne
  unfold addBlock at h
  rw [if_neg hne] at h
  exact Option.noConfusion h

theorem addBlocks_sound (max : Nat) :
    ∀ (blks : List Block) (gs : List (List Block)) (m : blockfileMgr),
      Chain gs → addBlocks (mgrOfGroups max gs) blks = some m →
      ∃ gs2, Chain gs2 ∧ gs2.flatten = gs.flatten ++ blks ∧
        m = mgrOfGroups max gs2 := by
  intro blks
  induction blks with
  | nil =>
    intro gs m hc h
    simp [addBlocks] at h
    exact ⟨gs, hc, by simp, h.symm⟩
  | cons b bl ih =>
    intro gs m hc h
    unfold addBlocks at h
    cases ha : addBlock (mgrOfGroups max gs) b with
    | none => rw [ha] at h; exact Option.noConfusion h
    | some m1 =>
      rw [ha] at h
      have hb : b.number = gs.flatten.length + 1 := addBlock_number _ _ _ ha
      have ha2 := addBlock_groups max gs b hc hb
      rw [ha] at ha2
      have hm1 : m1 = mgrOfGroups max (groupsAppend max gs b) :=
        Option.some.inj ha2
      obtain ⟨hc2, hfl2⟩ := chain_groupsAppend max gs b hc hb
      subst hm1
      obtain ⟨gs2, hcc, hflat, hmm⟩ := ih (groupsAppend max gs b) m hc2 h
      refine ⟨gs2, hcc, ?_, hmm⟩
      rw [hflat, hfl2, List.append_assoc]
      simp

theorem addBlocks_new (max : Nat) (blks : List Block) (m : blockfileMgr)
    (h : addBlocks (newBlockfileMgr max) blks = some m) :
    ∃ gs, Chain gs ∧ gs.flatten = blks ∧ m = mgrOfGroups max gs := by
  rw [newBlockfileMgr_groups] at h
  obtain ⟨gs, hc, hf, hm⟩ := addBlocks_sound max blks [[]] m chain_init h
  exact ⟨gs, hc, by simpa using hf, hm⟩

/-! ## Iterator range lemma -/

theorem itrToListLoop_range (max : Nat) (gs : List (List Block))
    (hc : Chain gs) :
    ∀ (fuel s : Nat), 1 ≤ s → fuel = gs.flatten.length + 1 - s →
      itrToListLoop fuel ⟨mgrOfGroups max gs, gs.flatten.length, s⟩ =
        gs.flatten.drop (s - 1) := by
  intro fuel
  induction fuel with
  | zero =>
    intro s hs hf
    rw [List.drop_eq_nil_of_le (by omega)]
    rfl
  | succ f ih =>
    intro s hs hf
    have hs1 : s - 1 < gs.flatten.length := by omega
    unfold itrToListLoop itrNext
    dsimp only
    rw [if_neg (show ¬ (gs.flatten.length < s) by omega)]
    have hr := retrieve_mgrOfGroups max gs hc (s - 1) hs1
    rw [show s - 1 + 1 = s from by omega] at hr
    rw [hr]
    dsimp only
    rw [ih (s + 1) (by omega) (by omega)]
    have hdrop := List.drop_eq_getElem_cons (l := gs.flatten) hs1
    rw [show s - 1 + 1 = s from by omega] at hdrop
    rw [show (s + 1) - 1 = s from by omega, hdrop, List.get_eq_getElem]

theorem itrToList_mgrOfGroups (max : Nat) (gs : List (List Block))
    (hc : Chain gs) (s : Nat) (hs : 1 ≤ s) :
    itrToList (retrieveBlocks (mgrOfGroups max gs) s) =
      gs.flatten.drop (s - 1) := by
  unfold itrToList retrieveBlocks
  dsimp only
  exact itrToListLoop_range max gs hc _ s hs rfl

/-! ## Crash recovery -/

theorem set_getD_self {α : Type} (l : List α) (i : Nat) (d : α)
    (h : i < l.length) : l.set i (l.getD i d) = l := by
  induction l generalizing i with
  | nil => simp at h
  | cons a t ih =>
    cases i with
    | zero => rfl
    | succ j =>
      simp only [List.getD_cons_succ, List.set_cons_succ]
      rw [ih j (by simpa using h)]

theorem chainEntries_getLast_fst (s off : Nat) (g : List Block) :
    ((chainEntries s off g).getLast?).map Prod.fst = g.getLast? := by
  have h := List.getLast?_map Prod.fst (chainEntries s off g)
  rw [chainEntries_map_fst] at h
  exact h.symm

/-- The number of the last block of a chain state equals the block count. -/
theorem flatten_getLast_number (gs : List (List Block)) (hc : Chain gs)
    (blast : Block) (h : gs.flatten.getLast? = some blast) :
    blast.number = gs.flatten.length := by
  have hne : gs.flatten ≠ [] := by
    intro h0
    rw [h0] at h
    simp at h
  have hlen : 0 < gs.flatten.length := List.length_pos.mpr hne
  rw [List.getLast?_eq_getElem?, List.getElem?_eq_getElem (by omega)] at h
  have := hc.numbered (gs.flatten.length - 1) (by omega)
  rw [List.get_eq_getElem] at this
  have hb : blast = gs.flatten[gs.flatten.length - 1] := by
    exact (Option.some.inj h).symm
  rw [hb, this]
  omega

/-- Crash truncation recovery: a state reached by appends, with an
undecodable partial tail appended to the active file and the checkpoint left
at the pre-corruption value, recovers to exactly the pre-corruption
manager. -/
theorem recover_crash (max : Nat) (gs : List (List Block)) (hc : Chain gs)
    (g : List Nat) (hg : decodeRecord g = none) :
    recoverMgr max
      ((mgrOfGroups max gs).files.set
        (mgrOfGroups max gs).cpInfo.latestFileChunkSuffixNum
        (activeFile (mgrOfGroups max gs) ++ g))
      (mgrOfGroups max gs).cpInfo = mgrOfGroups max gs := by
  have hlen1 : 1 ≤ gs.length := by
    cases gs
    · exact absurd rfl hc.ne
    · simp
  have hslt : gs.length - 1 < gs.length := by omega
  rw [activeFile_mgrOfGroups max gs hc.ne]
  unfold recoverMgr
  dsimp only
  simp only [show (mgrOfGroups max gs).cpInfo.latestFileChunkSuffixNum =
    gs.length - 1 from rfl,
    show (mgrOfGroups max gs).files = gs.map fileBytes from rfl]
  have hactive : ((gs.map fileBytes).set (gs.length - 1)
      (fileBytes (lastGroup gs) ++ g)).getD (gs.length - 1) [] =
      fileBytes (lastGroup gs) ++ g := by
    rw [List.getD_eq_getElem?_getD, List.getElem?_set_self (by simpa using hslt)]
    rfl
  rw [hactive, scanFile_fileBytes_garbage _ _ _ hg]
  dsimp only
  rw [List.take_left, List.set_set]
  have hval : (gs.map fileBytes).getD (gs.length - 1) [] =
      fileBytes (lastGroup gs) := by
    rw [getD_map_fileBytes _ _ hslt]
    rfl
  rw [show (gs.map fileBytes).set (gs.length - 1) (fileBytes (lastGroup gs)) =
      gs.map fileBytes by
    rw [← hval]
    exact set_getD_self _ _ _ (by simpa using hslt)]
  have hlastnum : (match (chainEntries (gs.length - 1) 0 (lastGroup gs)).getLast? with
      | some e => e.1.number
      | none => (mgrOfGroups max gs).cpInfo.lastBlockNumber) =
      gs.flatten.length := by
    cases hgl : (chainEntries (gs.length - 1) 0 (lastGroup gs)).getLast? with
    | none => rfl
    | some e =>
      dsimp only
      have hm := chainEntries_getLast_fst (gs.length - 1) 0 (lastGroup gs)
      rw [hgl] at hm
      have hlgne : lastGroup gs ≠ [] := by
        intro h0
        rw [h0] at hm
        simp [chainEntries] at hm
      have hfl : gs.flatten.getLast? = (lastGroup gs).getLast? := by
        rw [flatten_dropLast_lastGroup gs hc.ne]
        exact List.getLast?_append_of_ne_nil _ hlgne
      have : gs.flatten.getLast? = some e.1 := by
        rw [hfl, ← hm]
        rfl
      exact flatten_getLast_number gs hc e.1 this
  rw [hlastnum]
  simp only [mgrOfGroups, blockfileMgr.mk.injEq, checkpointInfo.mk.injEq]

/-! ## Remaining shared helpers -/

theorem getBlockchainInfo_height (mm : blockfileMgr) :
    (getBlockchainInfo mm).height = mm.cpInfo.lastBlockNumber := by
  unfold getBlockchainInfo
  by_cases h0 : mm.cpInfo.lastBlockNumber = 0
  · rw [if_pos h0, h0]
  · rw [if_neg h0]

theorem addBlock_lastBlockNumber (m : blockfileMgr) (b : Block)
    (m1 : blockfileMgr) (h : addBlock m b = some m1) :
    m1.cpInfo.lastBlockNumber = m.cpInfo.lastBlockNumber + 1 := by
  have hb := addBlock_number m b m1 h
  unfold addBlock at h
  rw [if_pos hb] at h
  dsimp only at h
  split at h <;>
  · have hinj := Option.some.inj h
    rw [← hinj]
    exact hb

theorem addBlocks_last_le : ∀ (blks : List Block) (m m2 : blockfileMgr),
    addBlocks m blks = some m2 →
    m.cpInfo.lastBlockNumber ≤ m2.cpInfo.lastBlockNumber := by
  intro blks
  induction blks with
  | nil =>
    intro m m2 h
    simp [addBlocks] at h
    rw [h]
  | cons b bl ih =>
    intro m m2 h
    unfold addBlocks at h
    cases ha : addBlock m b with
    | none => rw [ha] at h; exact Option.noConfusion h
    | some m1 =>
      rw [ha] at h
      have h1 := addBlock_lastBlockNumber m b m1 ha
      have h2 := ih m1 m2 h
      omega

/-! ## The claims -/

/-- Claim C5: codec round-trip — for every Block `b`,
`deserializeBlock (serializeBlock b) = some b`: the deterministic encoder's
output is decoded back to exactly the same block. -/
theorem codec_round_trip (b : Block) :
    deserializeBlock (serializeBlock b) = some b :=
  deserializeBlock_serializeBlock b

/-- Claim C3: append-then-read — after appending blocks `1..N` to a fresh
store, `retrieveBlockByNumber` returns block `k` for every `1 ≤ k ≤ N`, and
an iterator created at block 1 yields exactly blocks `1..N` in ascending
order. -/
theorem append_then_read (max : Nat) (blks : List Block) (m : blockfileMgr)
    (h : addBlocks (newBlockfileMgr max) blks = some m) :
    (∀ k (h1 : 1 ≤ k) (h2 : k ≤ blks.length),
      retrieveBlockByNumber m k = some (blks.get ⟨k - 1, by omega⟩)) ∧
    itrToList (retrieveBlocks m 1) = blks := by
  obtain ⟨gs, hc, hf, hm⟩ := addBlocks_new max blks m h
  subst hm
  subst hf
  constructor
  · intro k h1 h2
    have hk : k - 1 < gs.flatten.length := by omega
    have hr := retrieve_mgrOfGroups max gs hc (k - 1) hk
    rw [show k - 1 + 1 = k from by omega] at hr
    exact hr
  · have hit := itrToList_mgrOfGroups max gs hc 1 (le_refl 1)
    simpa using hit

/-- Claim C8: height monotonicity — across every sequence of successful
appends, `getBlockchainInfo`'s height never decreases. -/
theorem height_monotonicity (m : blockfileMgr) (blks : List Block)
    (m2 : blockfileMgr) (h : addBlocks m blks = some m2) :
    (getBlockchainInfo m).height ≤ (getBlockchainInfo m2).height := by
  rw [getBlockchainInfo_height, getBlockchainInfo_height]
  exact addBlocks_last_le blks m m2 h

/-- Claim C7: blockchain info — `getBlockchainInfo` returns height equal to
the last block number together with the hash of the last block and the hash
of the immediately preceding block, both obtained through the Index; an
empty ledger reports height 0 and empty hashes. -/
theorem blockchain_info_provider (max : Nat) (blks : List Block)
    (m : blockfileMgr) (h : addBlocks (newBlockfileMgr max) blks = some m) :
    getBlockchainInfo (newBlockfileMgr max) = ⟨0, [], []⟩ ∧
    ∀ h1 : 1 ≤ blks.length,
      getBlockchainInfo m =
        ⟨blks.length, (blks.get ⟨blks.length - 1, by omega⟩).hash,
          if h2 : 2 ≤ blks.length then
            (blks.get ⟨blks.length - 2, by omega⟩).hash
          else []⟩ := by
  obtain ⟨gs, hc, hf, hm⟩ := addBlocks_new max blks m h
  subst hm
  subst hf
  refine ⟨rfl, ?_⟩
  intro h1
  have hN0 : ¬ ((mgrOfGroups max gs).cpInfo.lastBlockNumber = 0) := by
    show ¬ (gs.flatten.length = 0)
    omega
  unfold getBlockchainInfo
  rw [if_neg hN0]
  have hcur : hashOfBlockNum (mgrOfGroups max gs)
      (mgrOfGroups max gs).cpInfo.lastBlockNumber =
      (gs.flatten.get ⟨gs.flatten.length - 1, by omega⟩).hash := by
    unfold hashOfBlockNum
    have hr := retrieve_mgrOfGroups max gs hc (gs.flatten.length - 1) (by omega)
    rw [show gs.flatten.length - 1 + 1 = gs.flatten.length from by omega] at hr
    rw [show (mgrOfGroups max gs).cpInfo.lastBlockNumber =
      gs.flatten.length from rfl, hr]
  have hprev : hashOfBlockNum (mgrOfGroups max gs)
      ((mgrOfGroups max gs).cpInfo.lastBlockNumber - 1) =
      (if h2 : 2 ≤ gs.flatten.length then
        (gs.flatten.get ⟨gs.flatten.length - 2, by omega⟩).hash
       else []) := by
    rw [show (mgrOfGroups max gs).cpInfo.lastBlockNumber =
      gs.flatten.length from rfl]
    by_cases h2 : 2 ≤ gs.flatten.length
    · rw [dif_pos h2]
      unfold hashOfBlockNum
      have hr := retrieve_mgrOfGroups max gs hc (gs.flatten.length - 2) (by omega)
      rw [show gs.flatten.length - 2 + 1 = gs.flatten.length - 1 from by omega] at hr
      rw [hr]
    · rw [dif_neg h2]
      have hN1 : gs.flatten.length = 1 := by omega
      unfold hashOfBlockNum
      rw [hN1]
      rw [show (1 : Nat) - 1 = 0 from rfl]
      rw [retrieve_mgrOfGroups_zero max gs hc]
  rw [hcur, hprev]
  rfl

/-- Components of recovery from a crashed chain state under an arbitrary
stale checkpoint that still names the correct active file. -/
theorem recoverMgr_crash_state (max2 : Nat) (gs : List (List Block))
    (hc : Chain gs) (g : List Nat) (hg : decodeRecord g = none)
    (cp2 : checkpointInfo) (hs : cp2.latestFileChunkSuffixNum = gs.length - 1) :
    (recoverMgr max2 ((gs.map fileBytes).set (gs.length - 1)
        (fileBytes (lastGroup gs) ++ g)) cp2).files = gs.map fileBytes ∧
    (recoverMgr max2 ((gs.map fileBytes).set (gs.length - 1)
        (fileBytes (lastGroup gs) ++ g)) cp2).cpInfo.latestFileChunkSuffixNum =
      gs.length - 1 ∧
    (recoverMgr max2 ((gs.map fileBytes).set (gs.length - 1)
        (fileBytes (lastGroup gs) ++ g)) cp2).cpInfo.latestFileChunksize =
      (fileBytes (lastGroup gs)).length ∧
    (recoverMgr max2 ((gs.map fileBytes).set (gs.length - 1)
        (fileBytes (lastGroup gs) ++ g)) cp2).persistedCpInfo =
      (recoverMgr max2 ((gs.map fileBytes).set (gs.length - 1)
        (fileBytes (lastGroup gs) ++ g)) cp2).cpInfo := by
  have hlen1 : 1 ≤ gs.length := by
    cases gs
    · exact absurd rfl hc.ne
    · simp
  have hslt : gs.length - 1 < gs.length := by omega
  unfold recoverMgr
  dsimp only
  rw [hs]
  have hactive : ((gs.map fileBytes).set (gs.length - 1)
      (fileBytes (lastGroup gs) ++ g)).getD (gs.length - 1) [] =
      fileBytes (lastGroup gs) ++ g := by
    rw [List.getD_eq_getElem?_getD, List.getElem?_set_self (by simpa using hslt)]
    rfl
  rw [hactive, scanFile_fileBytes_garbage _ _ _ hg]
  dsimp only
  rw [List.take_left, List.set_set]
  have hval : (gs.map fileBytes).getD (gs.length - 1) [] =
      fileBytes (lastGroup gs) := by
    rw [getD_map_fileBytes _ _ hslt]
    rfl
  rw [show (gs.map fileBytes).set (gs.length - 1) (fileBytes (lastGroup gs)) =
      gs.map fileBytes by
    rw [← hval]
    exact set_getD_self _ _ _ (by simpa using hslt)]
  exact ⟨rfl, rfl, rfl, rfl⟩

/-- Claim C1: crash truncation idempotence — for a log of fully written
blocks, appending a strict prefix of one record to the active blockfile and
reverting the persisted checkpoint to its pre-append value, restart
reconstructs the manager (CheckpointInfo, both Index maps and the truncated
files) identical to the pre-crash state, and a subsequent append continues
at block N+1 with contiguous numbering. -/
theorem crash_truncation_idempotence (max : Nat) (blks : List Block)
    (m : blockfileMgr) (len2 : Nat) (payload : List Nat) (M : Nat) (b : Block)
    (h : addBlocks (newBlockfileMgr max) blks = some m)
    (hp : payload.length = len2) (hM0 : 0 < M)
    (hM : M < (varintEncode len2).length + len2)
    (hb : b.number = blks.length + 1) :
    recoverMgr max
        (m.files.set m.cpInfo.latestFileChunkSuffixNum
          (activeFile m ++ (varintEncode len2 ++ payload).take M))
        m.cpInfo = m ∧
      ∃ m3, addBlock (recoverMgr max
        (m.files.set m.cpInfo.latestFileChunkSuffixNum
          (activeFile m ++ (varintEncode len2 ++ payload).take M))
        m.cpInfo) b = some m3 ∧
        m3.cpInfo.lastBlockNumber = blks.length + 1 := by
  obtain ⟨gs, hc, hf, hm⟩ := addBlocks_new max blks m h
  subst hm
  subst hf
  have hg : decodeRecord ((varintEncode len2 ++ payload).take M) = none :=
    decodeRecord_partial len2 payload M hp hM0 hM
  have hrec := recover_crash max gs hc _ hg
  refine ⟨hrec, ?_⟩
  rw [hrec]
  refine ⟨mgrOfGroups max (groupsAppend max gs b),
    addBlock_groups max gs b hc hb, ?_⟩
  show (groupsAppend max gs b).flatten.length = gs.flatten.length + 1
  rw [(chain_groupsAppend max gs b hc hb).2]
  simp

/-- Claim C2: central durability invariant — after every successful batch of
appends, `latestFileChunksize` equals the physical length of the active file
which ends exactly at the last complete record boundary, and the persisted
checkpoint matches the in-memory one; after recovery from a crashed state
the same holds for the re-persisted checkpoint, for any stale durable
checkpoint naming the active file. -/
theorem checkpoint_durability_invariant (max : Nat) (blks : List Block)
    (m : blockfileMgr) (len2 : Nat) (payload : List Nat) (M : Nat)
    (cp2 : checkpointInfo)
    (h : addBlocks (newBlockfileMgr max) blks = some m)
    (hp : payload.length = len2) (hM0 : 0 < M)
    (hM : M < (varintEncode len2).length + len2)
    (hcp : cp2.latestFileChunkSuffixNum = m.cpInfo.latestFileChunkSuffixNum) :
    (m.cpInfo.latestFileChunksize = (activeFile m).length ∧
      (scanFile m.cpInfo.latestFileChunkSuffixNum (activeFile m)).2 =
        m.cpInfo.latestFileChunksize ∧
      m.persistedCpInfo = m.cpInfo) ∧
    ((recoverMgr max
        (m.files.set m.cpInfo.latestFileChunkSuffixNum
          (activeFile m ++ (varintEncode len2 ++ payload).take M))
        cp2).cpInfo.latestFileChunksize =
      (activeFile (recoverMgr max
        (m.files.set m.cpInfo.latestFileChunkSuffixNum
          (activeFile m ++ (varintEncode len2 ++ payload).take M))
        cp2)).length ∧
      (scanFile (recoverMgr max
        (m.files.set m.cpInfo.latestFileChunkSuffixNum
          (activeFile m ++ (varintEncode len2 ++ payload).take M))
        cp2).cpInfo.latestFileChunkSuffixNum
        (activeFile (recoverMgr max
        (m.files.set m.cpInfo.latestFileChunkSuffixNum
          (activeFile m ++ (varintEncode len2 ++ payload).take M))
        cp2))).2 =
      (recoverMgr max
        (m.files.set m.cpInfo.latestFileChunkSuffixNum
          (activeFile m ++ (varintEncode len2 ++ payload).take M))
        cp2).cpInfo.latestFileChunksize ∧
      (recoverMgr max
        (m.files.set m.cpInfo.latestFileChunkSuffixNum
          (activeFile m ++ (varintEncode len2 ++ payload).take M))
        cp2).persistedCpInfo =
      (recoverMgr max
        (m.files.set m.cpInfo.latestFileChunkSuffixNum
          (activeFile m ++ (varintEncode len2 ++ payload).take M))
        cp2).cpInfo) := by
  obtain ⟨gs, hc, hf, hm⟩ := addBlocks_new max blks m h
  subst hm
  subst hf
  have hg : decodeRecord ((varintEncode len2 ++ payload).take M) = none :=
    decodeRecord_partial len2 payload M hp hM0 hM
  have hlen1 : 1 ≤ gs.length := by
    cases gs
    · exact absurd rfl hc.ne
    · simp
  have hslt : gs.length - 1 < gs.length := by omega
  constructor
  · refine ⟨?_, ?_, rfl⟩
    · rw [activeFile_mgrOfGroups max gs hc.ne]
      rfl
    · rw [activeFile_mgrOfGroups max gs hc.ne]
      rw [show (mgrOfGroups max gs).cpInfo.latestFileChunkSuffixNum =
        gs.length - 1 from rfl]
      rw [scanFile_fileBytes]
      rfl
  · rw [activeFile_mgrOfGroups max gs hc.ne]
    rw [show (mgrOfGroups max gs).files = gs.map fileBytes from rfl]
    rw [show (mgrOfGroups max gs).cpInfo.latestFileChunkSuffixNum =
      gs.length - 1 from rfl]
    rw [show (mgrOfGroups max gs).cpInfo.latestFileChunkSuffixNum =
      gs.length - 1 from rfl] at hcp
    obtain ⟨hfiles, hsfx, hchunk, hpers⟩ :=
      recoverMgr_crash_state max gs hc _ hg cp2 hcp
    refine ⟨?_, ?_, hpers⟩
    · rw [hchunk]
      unfold activeFile
      rw [hfiles, hsfx, getD_map_fileBytes _ _ hslt]
      rfl
    · unfold activeFile
      rw [hfiles, hsfx, getD_map_fileBytes _ _ hslt]
      rw [show gs.getD (gs.length - 1) [] = lastGroup gs from rfl]
      rw [scanFile_fileBytes, hchunk]

/-- Claim C6: iterator snapshot semantics — an iterator opened at `s` yields
the finite ascending sequence of blocks from `s` up to the last block number
observed at creation time; every yielded block has number at most that
bound, and a block appended after the iterator was created is never yielded
by the already-open iterator. -/
theorem iterator_snapshot (max : Nat) (blks : List Block) (m m2 : blockfileMgr)
    (b : Block) (s : Nat) (hs : 1 ≤ s)
    (h : addBlocks (newBlockfileMgr max) blks = some m)
    (ha : addBlock m b = some m2) :
    itrToList (retrieveBlocks m s) = blks.drop (s - 1) ∧
    (∀ blk ∈ itrToList (retrieveBlocks m s),
      blk.number ≤ m.cpInfo.lastBlockNumber) ∧
    b ∉ itrToList (retrieveBlocks m s) := by
  obtain ⟨gs, hc, hf, hm⟩ := addBlocks_new max blks m h
  subst hm
  subst hf
  have hit := itrToList_mgrOfGroups max gs hc s hs
  refine ⟨hit, ?_, ?_⟩
  · intro blk hblk
    rw [hit] at hblk
    have hmem : blk ∈ gs.flatten := List.mem_of_mem_drop hblk
    obtain ⟨j, hj⟩ := List.mem_iff_get.mp hmem
    have hnum := hc.numbered j.1 j.2
    simp only [Fin.eta] at hnum
    rw [hj] at hnum
    show blk.number ≤ gs.flatten.length
    have := j.2
    omega
  · intro hbmem
    rw [hit] at hbmem
    have hmem : b ∈ gs.flatten := List.mem_of_mem_drop hbmem
    obtain ⟨j, hj⟩ := List.mem_iff_get.mp hmem
    have hnum := hc.numbered j.1 j.2
    simp only [Fin.eta] at hnum
    rw [hj] at hnum
    have hbn : b.number = gs.flatten.length + 1 := addBlock_number _ _ _ ha
    have := j.2
    omega

/-- Claim C4: file rolling — with a nonzero `maxFileSize`, an append rolls
to a fresh blockfile exactly when the active file size plus the incoming
record size would exceed it, bumping the file suffix by exactly 1 and
writing the whole record into the new file; otherwise, and always when
`maxFileSize = 0`, the suffix is unchanged; and every blockfile of the
resulting state is a concatenation of whole records, so no block record is
split across two blockfiles. -/
theorem file_rolling_policy (max : Nat) (blks : List Block)
    (m m2 : blockfileMgr) (b : Block)
    (h : addBlocks (newBlockfileMgr max) blks = some m)
    (ha : addBlock m b = some m2) :
    ((max ≠ 0 ∧ max < m.cpInfo.latestFileChunksize + (encodeRecord b).length) →
      m2.cpInfo.latestFileChunkSuffixNum =
        m.cpInfo.latestFileChunkSuffixNum + 1 ∧
      activeFile m2 = encodeRecord b) ∧
    (¬ (max ≠ 0 ∧
        max < m.cpInfo.latestFileChunksize + (encodeRecord b).length) →
      m2.cpInfo.latestFileChunkSuffixNum = m.cpInfo.latestFileChunkSuffixNum) ∧
    (max = 0 →
      m2.cpInfo.latestFileChunkSuffixNum = m.cpInfo.latestFileChunkSuffixNum) ∧
    ∀ i, i < m2.files.length → ∃ g2, m2.files.getD i [] = fileBytes g2 := by
  obtain ⟨gs, hc, hf, hm⟩ := addBlocks_new max blks m h
  subst hm
  have hb : b.number = gs.flatten.length + 1 := addBlock_number _ _ _ ha
  have hg := addBlock_groups max gs b hc hb
  rw [ha] at hg
  have hm2 : m2 = mgrOfGroups max (groupsAppend max gs b) := Option.some.inj hg
  subst hm2
  have hlen1 : 1 ≤ gs.length := by
    cases gs
    · exact absurd rfl hc.ne
    · simp
  have hroll : (max ≠ 0 ∧
      max < (mgrOfGroups max gs).cpInfo.latestFileChunksize +
        (encodeRecord b).length) →
      groupsAppend max gs b = gs ++ [[b]] := by
    intro hcond
    unfold groupsAppend
    rw [if_pos (show max ≠ 0 ∧ max <
      (fileBytes (lastGroup gs)).length + (encodeRecord b).length from hcond)]
  have hnoroll : ¬ (max ≠ 0 ∧
      max < (mgrOfGroups max gs).cpInfo.latestFileChunksize +
        (encodeRecord b).length) →
      groupsAppend max gs b = gs.dropLast ++ [lastGroup gs ++ [b]] := by
    intro hcond
    unfold groupsAppend
    rw [if_neg (show ¬ (max ≠ 0 ∧ max <
      (fileBytes (lastGroup gs)).length + (encodeRecord b).length) from hcond)]
  refine ⟨?_, ?_, ?_, ?_⟩
  · intro hcond
    rw [hroll hcond]
    constructor
    · show (gs ++ [[b]]).length - 1 = gs.length - 1 + 1
      simp
      omega
    · rw [activeFile_mgrOfGroups max _ (by simp)]
      rw [lastGroup_append]
      exact fileBytes_singleton b
  · intro hcond
    rw [hnoroll hcond]
    show (gs.dropLast ++ [lastGroup gs ++ [b]]).length - 1 = gs.length - 1
    simp [List.length_dropLast]
  · intro h0
    have hcond : ¬ (max ≠ 0 ∧
        max < (mgrOfGroups max gs).cpInfo.latestFileChunksize +
          (encodeRecord b).length) := by
      intro hcc
      exact hcc.1 h0
    rw [hnoroll hcond]
    show (gs.dropLast ++ [lastGroup gs ++ [b]]).length - 1 = gs.length - 1
    simp [List.length_dropLast]
  · intro i hi
    rw [show (mgrOfGroups max (groupsAppend max gs b)).files =
      (groupsAppend max gs b).map fileBytes from rfl] at hi ⊢
    rw [List.length_map] at hi
    exact ⟨(groupsAppend max gs b).getD i [], getD_map_fileBytes _ _ hi⟩

/-! ## Concrete witness data -/

def wBlk1 : Block := ⟨1, [10], [], [[1, 2]]⟩

def wBlk2 : Block := ⟨2, [20], [10], []⟩

def wBlk3 : Block := ⟨3, [30], [20], [[5]]⟩

def wMgr1 : blockfileMgr := mgrOfGroups 0 [[wBlk1]]

def wTail : List Nat := (varintEncode 2 ++ [9, 9]).take 2

def wCrashFiles : List (List Nat) :=
  wMgr1.files.set wMgr1.cpInfo.latestFileChunkSuffixNum
    (activeFile wMgr1 ++ wTail)

/-- Witness for claim C1: a one-block log with two bytes of a partial record
appended recovers to the original manager and accepts block 2. -/
theorem crash_truncation_idempotence_witness :
    recoverMgr 0 wCrashFiles wMgr1.cpInfo = wMgr1 ∧
    ∃ m3, addBlock (recoverMgr 0 wCrashFiles wMgr1.cpInfo) wBlk2 = some m3 ∧
      m3.cpInfo.lastBlockNumber = [wBlk1].length + 1 :=
  crash_truncation_idempotence 0 [wBlk1] wMgr1 2 [9, 9] 2 wBlk2 (by decide)
    (by decide) (by decide) (by decide) (by decide)

/-- Witness for claim C2: the durability invariant at a concrete one-block
ledger, recovering under the zero sentinel as the stale checkpoint. -/
theorem checkpoint_durability_invariant_witness :
    (wMgr1.cpInfo.latestFileChunksize = (activeFile wMgr1).length ∧
      (scanFile wMgr1.cpInfo.latestFileChunkSuffixNum (activeFile wMgr1)).2 =
        wMgr1.cpInfo.latestFileChunksize ∧
      wMgr1.persistedCpInfo = wMgr1.cpInfo) ∧
    ((recoverMgr 0 wCrashFiles ⟨0, 0, 0⟩).cpInfo.latestFileChunksize =
      (activeFile (recoverMgr 0 wCrashFiles ⟨0, 0, 0⟩)).length ∧
      (scanFile (recoverMgr 0 wCrashFiles ⟨0, 0, 0⟩).cpInfo.latestFileChunkSuffixNum
        (activeFile (recoverMgr 0 wCrashFiles ⟨0, 0, 0⟩))).2 =
      (recoverMgr 0 wCrashFiles ⟨0, 0, 0⟩).cpInfo.latestFileChunksize ∧
      (recoverMgr 0 wCrashFiles ⟨0, 0, 0⟩).persistedCpInfo =
      (recoverMgr 0 wCrashFiles ⟨0, 0, 0⟩).cpInfo) :=
  checkpoint_durability_invariant 0 [wBlk1] wMgr1 2 [9, 9] 2 ⟨0, 0, 0⟩
    (by decide) (by decide) (by decide) (by decide) (by decide)

/-- Witness for claim C3 at a concrete two-block ledger. -/
theorem append_then_read_witness :
    addBlocks (newBlockfileMgr 0) [wBlk1, wBlk2] =
      some (mgrOfGroups 0 [[wBlk1, wBlk2]]) ∧
    retrieveBlockByNumber (mgrOfGroups 0 [[wBlk1, wBlk2]]) 2 = some wBlk2 ∧
    itrToList (retrieveBlocks (mgrOfGroups 0 [[wBlk1, wBlk2]]) 1) =
      [wBlk1, wBlk2] := by
  refine ⟨by decide, ?_, ?_⟩
  · exact (append_then_read 0 [wBlk1, wBlk2] _ (by decide)).1 2 (by decide)
      (by decide)
  · exact (append_then_read 0 [wBlk1, wBlk2] _ (by decide)).2

/-- Witness for claim C4: with `maxFileSize = 10` the second block rolls to
a fresh blockfile holding exactly its record. -/
theorem file_rolling_policy_witness :
    (mgrOfGroups 10 [[wBlk1], [wBlk2]]).cpInfo.latestFileChunkSuffixNum =
      (mgrOfGroups 10 [[wBlk1]]).cpInfo.latestFileChunkSuffixNum + 1 ∧
    activeFile (mgrOfGroups 10 [[wBlk1], [wBlk2]]) = encodeRecord wBlk2 := by
  have h := file_rolling_policy 10 [wBlk1] (mgrOfGroups 10 [[wBlk1]])
    (mgrOfGroups 10 [[wBlk1], [wBlk2]]) wBlk2 (by decide) (by decide)
  exact h.1 (by decide)

/-- Witness for claim C6: an iterator opened before block 3 is appended
yields blocks 1 and 2 only and never block 3. -/
theorem iterator_snapshot_witness :
    itrToList (retrieveBlocks (mgrOfGroups 0 [[wBlk1, wBlk2]]) 1) =
      [wBlk1, wBlk2].drop 0 ∧
    (∀ blk ∈ itrToList (retrieveBlocks (mgrOfGroups 0 [[wBlk1, wBlk2]]) 1),
      blk.number ≤ (mgrOfGroups 0 [[wBlk1, wBlk2]]).cpInfo.lastBlockNumber) ∧
    wBlk3 ∉ itrToList (retrieveBlocks (mgrOfGroups 0 [[wBlk1, wBlk2]]) 1) :=
  iterator_snapshot 0 [wBlk1, wBlk2] (mgrOfGroups 0 [[wBlk1, wBlk2]])
    (mgrOfGroups 0 [[wBlk1, wBlk2, wBlk3]]) wBlk3 1 (by decide) (by decide)
    (by decide)

/-- Witness for claim C7 at a concrete two-block ledger. -/
theorem blockchain_info_provider_witness :
    getBlockchainInfo (newBlockfileMgr 0) = ⟨0, [], []⟩ ∧
    getBlockchainInfo (mgrOfGroups 0 [[wBlk1, wBlk2]]) = ⟨2, [20], [10]⟩ := by
  have h := blockchain_info_provider 0 [wBlk1, wBlk2]
    (mgrOfGroups 0 [[wBlk1, wBlk2]]) (by decide)
  exact ⟨h.1, h.2 (by decide)⟩

/-- Witness for claim C8 at a concrete append sequence. -/
theorem height_monotonicity_witness :
    (getBlockchainInfo (newBlockfileMgr 0)).height ≤
      (getBlockchainInfo (mgrOfGroups 0 [[wBlk1, wBlk2]])).height :=
  height_monotonicity (newBlockfileMgr 0) [wBlk1, wBlk2]
    (mgrOfGroups 0 [[wBlk1, wBlk2]]) (by decide)

/-! ## Key loading (`LoadPrivateKey` / `LoadSM2PrivateKey`, csp.go)

Embedded from src/common/tools/cryptogen/csp/csp.go lines 27-138.  The
filesystem walk is modelled as the list of files `filepath.Walk` visits, in
walk order; the external calls made per file (`pem.Decode`,
`csp.KeyImport`, `signer.New`) are abstracted by per-file success flags and
an abstract key identity. -/

/-- One file visited by the keystore walk, with the outcomes of the external
calls the walk body makes on it. -/
structure KeystoreFile where
  path : List Char
  pemOk : Bool
  importOk : Bool
  signerOk : Bool
  keyId : Nat
deriving DecidableEq

/-- Errors the walk function can abort with (csp.go lines 52-68). -/
inductive WalkError
  | wrongPEM (path : List Char)
  | importFailed (path : List Char)
  | signerFailed (path : List Char)
deriving DecidableEq

/-- The `strings.HasSuffix(path, "_sk")` test (csp.go line 50). -/
def isSkFile (f : KeystoreFile) : Bool :=
  f.path.reverse.take 3 == ['k', 's', '_']

/-- The walk over keystore files (csp.go lines 49-75): files are visited in
walk order; a path without the `_sk` suffix is skipped; an `_sk` file is
read, PEM-decoded, imported and wrapped in a signer, any failure aborting
the walk with an error; on success the captured key and signer are
overwritten. -/
def walkKeystore : List KeystoreFile → Option Nat → Option Nat →
    Except WalkError (Option Nat × Option Nat)
  | [], priv, sgn => Except.ok (priv, sgn)
  | f :: rest, priv, sgn =>
    if isSkFile f then
      if f.pemOk = false then Except.error (WalkError.wrongPEM f.path)
      else if f.importOk = false then
        Except.error (WalkError.importFailed f.path)
      else if f.signerOk = false then
        Except.error (WalkError.signerFailed f.path)
      else walkKeystore rest (some f.keyId) (some f.keyId)
    else walkKeystore rest priv sgn

/-- `LoadPrivateKey` (csp.go lines 27-81): runs the walk starting from nil
key and signer; a walk error yields nil results plus the error, otherwise
the captured key and signer with a nil error. -/
def LoadPrivateKey (files : List KeystoreFile) :
    Option Nat × Option Nat × Option WalkError :=
  match walkKeystore files none none with
  | Except.error e => (none, none, some e)
  | Except.ok (priv, sgn) => (priv, sgn, none)

/-- `LoadSM2PrivateKey` (csp.go lines 84-138): identical walk logic to
`LoadPrivateKey`; the two functions differ only in the BCCSP provider
options, which lie outside the walk abstraction. -/
def LoadSM2PrivateKey (files : List KeystoreFile) :
    Option Nat × Option Nat × Option WalkError :=
  match walkKeystore files none none with
  | Except.error e => (none, none, some e)
  | Except.ok (priv, sgn) => (priv, sgn, none)

theorem walkKeystore_ok (files : List KeystoreFile)
    (hok : ∀ f ∈ files, isSkFile f = true → f.pemOk ∧ f.importOk ∧ f.signerOk) :
    ∀ (priv sgn : Option Nat),
      walkKeystore files priv sgn = Except.ok
        (match (files.filter isSkFile).getLast? with
          | some f => (some f.keyId, some f.keyId)
          | none => (priv, sgn)) := by
  induction files with
  | nil => intro priv sgn; rfl
  | cons f rest ih =>
    intro priv sgn
    have hok2 : ∀ x ∈ rest, isSkFile x = true →
        x.pemOk ∧ x.importOk ∧ x.signerOk :=
      fun x hx => hok x (List.mem_cons_of_mem _ hx)
    by_cases hsk : isSkFile f
    · obtain ⟨h1, h2, h3⟩ := hok f (List.mem_cons_self _ _) hsk
      unfold walkKeystore
      rw [if_pos hsk, if_neg (by simp [h1]), if_neg (by simp [h2]),
        if_neg (by simp [h3])]
      rw [ih hok2 (some f.keyId) (some f.keyId)]
      rw [List.filter_cons_of_pos hsk, List.getLast?_cons]
      cases hl : (rest.filter isSkFile).getLast? with
      | none => rfl
      | some g => rfl
    · unfold walkKeystore
      rw [if_neg hsk]
      rw [ih hok2 priv sgn, List.filter_cons_of_neg hsk]

/-- Claim C9: when the keystore's directory tree contains no file whose path
ends in `_sk`, both `LoadPrivateKey` and `LoadSM2PrivateKey` return a nil
key, a nil signer and a nil error — indistinguishable from success by
inspecting the error; when several `_sk` files exist and all process
successfully, the key and signer returned are those of the last such file
visited by the walk. -/
theorem load_private_key_walk :
    (∀ files : List KeystoreFile, (∀ f ∈ files, isSkFile f = false) →
      LoadPrivateKey files = (none, none, none) ∧
      LoadSM2PrivateKey files = (none, none, none)) ∧
    (∀ (files : List KeystoreFile) (flast : KeystoreFile),
      (∀ f ∈ files, isSkFile f = true → f.pemOk ∧ f.importOk ∧ f.signerOk) →
      (files.filter isSkFile).getLast? = some flast →
      LoadPrivateKey files = (some flast.keyId, some flast.keyId, none) ∧
      LoadSM2PrivateKey files =
        (some flast.keyId, some flast.keyId, none)) := by
  constructor
  · intro files hno
    have hok : ∀ f ∈ files, isSkFile f = true →
        f.pemOk ∧ f.importOk ∧ f.signerOk := by
      intro f hf hsk
      rw [hno f hf] at hsk
      exact absurd hsk (by simp)
    have hfil : files.filter isSkFile = [] := by
      rw [List.filter_eq_nil_iff]
      intro f hf
      simp [hno f hf]
    have hwalk := walkKeystore_ok files hok none none
    rw [hfil] at hwalk
    refine ⟨?_, ?_⟩
    · unfold LoadPrivateKey
      rw [hwalk]
      rfl
    · unfold LoadSM2PrivateKey
      rw [hwalk]
      rfl
  · intro files flast hok hlast
    have hwalk := walkKeystore_ok files hok none none
    rw [hlast] at hwalk
    refine ⟨?_, ?_⟩
    · unfold LoadPrivateKey
      rw [hwalk]
    · unfold LoadSM2PrivateKey
      rw [hwalk]

def wSkFileA : KeystoreFile := ⟨['a', '_', 's', 'k'], true, true, true, 7⟩

def wSkFileB : KeystoreFile := ⟨['b', '_', 's', 'k'], true, true, true, 9⟩

def wPemFile : KeystoreFile := ⟨['c', 'a', '.', 'p', 'e', 'm'], true, true, true, 3⟩

/-- Witness for claim C9: a keystore with only a non-`_sk` file loads
nothing without error; with two `_sk` files, the later one wins. -/
theorem load_private_key_walk_witness :
    (LoadPrivateKey [wPemFile] = (none, none, none) ∧
      LoadSM2PrivateKey [wPemFile] = (none, none, none)) ∧
    (LoadPrivateKey [wSkFileA, wPemFile, wSkFileB] =
        (some 9, some 9, none) ∧
      LoadSM2PrivateKey [wSkFileA, wPemFile, wSkFileB] =
        (some 9, some 9, none)) :=
  ⟨load_private_key_walk.1 [wPemFile] (by decide),
    load_private_key_walk.2 [wSkFileA, wPemFile, wSkFileB] wSkFileB
      (by decide) (by decide)⟩

/-! ## `GetECPublicKey` (csp.go lines 201-219)

Embedded from the source: the function calls `priv.PublicKey()`,
`pubKey.Bytes()` and `x509.ParsePKIXPublicKey`, returning each step's error;
the final statement performs the unchecked dynamic type assertion
`ecPubKey.(*ecdsa.PublicKey)`, which panics when the parsed key is not an
ECDSA public key.  The three external calls are abstracted by their
outcomes. -/

/-- Result of `x509.ParsePKIXPublicKey`: an ECDSA public key or a public
key of some other type (RSA, Ed25519, ...), each with an abstract
identity. -/
inductive ParsedPubKey
  | ecdsaKey (k : Nat)
  | otherKey (k : Nat)
deriving DecidableEq

/-- Outcome of a Go function that can return a value, return an error, or
panic. -/
inductive GoResult (α : Type)
  | ok (val : α)
  | err
  | panicked
deriving DecidableEq

/-- Outcomes of the external calls `GetECPublicKey` makes on its key
argument: `none` models the call returning an error. -/
structure ECKeyEnv where
  pubKeyResult : Option Nat
  bytesResult : Option Nat
  parseResult : Option ParsedPubKey
deriving DecidableEq

/-- `GetECPublicKey` (csp.go lines 201-219): early-returns each step's
error; the unchecked assertion on the parse result panics on a non-ECDSA
key. -/
def GetECPublicKey (env : ECKeyEnv) : GoResult Nat :=
  match env.pubKeyResult with
  | none => GoResult.err
  | some _ =>
    match env.bytesResult with
    | none => GoResult.err
    | some _ =>
      match env.parseResult with
      | none => GoResult.err
      | some (ParsedPubKey.ecdsaKey k) => GoResult.ok k
      | some (ParsedPubKey.otherKey _) => GoResult.panicked

/-- Claim C10: `GetECPublicKey` ends with an unchecked type assertion on the
parsed public key, so when the marshalled key parses to a non-ECDSA type it
panics rather than returning an error; under the precondition that the key
is ECDSA — the earlier steps succeed and the parse yields an ECDSA key —
the assertion always succeeds and the parsed key is returned without
error. -/
theorem get_ec_public_key_assertion :
    (∀ (env : ECKeyEnv) (k : Nat), env.pubKeyResult.isSome →
      env.bytesResult.isSome →
      env.parseResult = some (ParsedPubKey.otherKey k) →
      GetECPublicKey env = GoResult.panicked) ∧
    (∀ (env : ECKeyEnv) (k : Nat), env.pubKeyResult.isSome →
      env.bytesResult.isSome →
      env.parseResult = some (ParsedPubKey.ecdsaKey k) →
      GetECPublicKey env = GoResult.ok k) := by
  constructor <;>
  · intro env k h1 h2 h3
    unfold GetECPublicKey
    obtain ⟨p, hp⟩ := Option.isSome_iff_exists.mp h1
    obtain ⟨q, hq⟩ := Option.isSome_iff_exists.mp h2
    rw [hp, hq, h3]

/-- Witness for claim C10 at concrete environments. -/
theorem get_ec_public_key_assertion_witness :
    GetECPublicKey ⟨some 1, some 2, some (ParsedPubKey.otherKey 5)⟩ =
      GoResult.panicked ∧
    GetECPublicKey ⟨some 1, some 2, some (ParsedPubKey.ecdsaKey 6)⟩ =
      GoResult.ok 6 :=
  ⟨get_ec_public_key_assertion.1 ⟨some 1, some 2,
      some (ParsedPubKey.otherKey 5)⟩ 5 (by decide) (by decide) (by decide),
    get_ec_public_key_assertion.2 ⟨some 1, some 2,
      some (ParsedPubKey.ecdsaKey 6)⟩ 6 (by decide) (by decide) (by decide)⟩

end Fabric
